import Mathlib

/-!
# Verification of `convert_3mf_to_single_plate.py`

Shallow embedding of the core conversion engine of the
`Convert-gcode.3mf-multi-2-single_plate` repository
(`src/convert_3mf_to_single_plate.py`) and proofs about the claims of its
specification.

Modelling conventions:
* Archive entry names and all text are modelled as `List Char` (`Name`);
  `nm` converts a Lean string literal.
* An archive (`Zip`) is its raw container bytes (`fileBytes`, opaque) together
  with the entry list produced by `zipfile.namelist()` / `read()`.
* Entry contents (`EData`) are either `bin` (bytes that fail UTF-8 decoding)
  or `txt s x`: bytes that decode to the text `s`, where `x` is the result
  `xml.etree.ElementTree.fromstring` would give on `s` (`none` = parse error).
  XML documents are modelled structurally (`XmlDoc`): the code only ever
  inspects `./plate` children and their `./metadata` children's `key`/`value`
  attributes, so everything else is kept opaque.
* Python `int()` is modelled for optionally signed ASCII decimal numerals with
  surrounding ASCII whitespace; underscore digit grouping and non-ASCII digits
  are not modelled.  Python `\d` in the plate-file pattern is modelled as the
  ASCII digits.  `str.lower` / whitespace classes are modelled for ASCII.
* `convert`'s effects are modelled by its result: `.copied b p` means the file
  at output path `p` is written with exactly the bytes `b`
  (`out_path.write_bytes(input_path.read_bytes())`), `.built es p` means a new
  container with entry sequence `es` is assembled at `p`, and `.error e` means
  the corresponding `RuntimeError` escapes `convert` before any output file is
  created (in the source, error detection happens before the output archive is
  opened for writing).
-/

namespace Conv3mf

/-- Entry names and text, as Python strings (sequences of characters). -/
abbrev Name := List Char

/-- Embed a Lean string literal as a `Name`. -/
def nm (s : String) : Name := s.data

/-- `pat <+: n` as a boolean, mirroring Python `n.startswith(pat)`. -/
def startsWithN (n pat : Name) : Bool :=
  match n, pat with
  | _, [] => true
  | [], _ :: _ => false
  | c :: cs, p :: ps => c == p && startsWithN cs ps

/-- Python `n.endswith(pat)`. -/
def endsWithN (n pat : Name) : Bool :=
  startsWithN n.reverse pat.reverse

/-- Python `pat in n` (substring test). -/
def containsSub (n pat : Name) : Bool :=
  if startsWithN n pat then true
  else
    match n with
    | [] => false
    | _ :: t => containsSub t pat

/-- Python `name.rsplit("/", 1)[-1]`: the part after the last slash. -/
def baseName (n : Name) : Name :=
  (n.reverse.takeWhile (fun c => c ≠ '/')).reverse

/-- Python `name.endswith("/")` (directory entry test). -/
def endsSlash (n : Name) : Bool :=
  match n.getLast? with
  | some c => c == '/'
  | none => false

/-- `MAC_JUNK_PREFIXES`/`MAC_JUNK_FILES` junk test (`is_mac_junk`). -/
def is_mac_junk (n : Name) : Bool :=
  startsWithN n (nm "__MACOSX/") || baseName n == nm ".DS_Store"

/-- Python ASCII whitespace characters (for `str.strip()`). -/
def isPySpace (c : Char) : Bool :=
  c == ' ' || c == '\t' || c == '\n' || c == '\r' || c == '\x0b' || c == '\x0c'

/-- Python `s.strip()` (ASCII whitespace). -/
def pyStrip (s : Name) : Name :=
  ((s.dropWhile isPySpace).reverse.dropWhile isPySpace).reverse

/-- Python `s.lstrip("/")`. -/
def dropSlashes (s : Name) : Name :=
  s.dropWhile (fun c => c == '/')

/-- Numeric value of a list of ASCII digits (most significant first). -/
def digitsToNat (ds : Name) : Nat :=
  ds.foldl (fun a c => 10 * a + (c.toNat - 48)) 0

/-- Python `int(v)` on the texts this program feeds it: optional surrounding
ASCII whitespace, optional sign, one or more ASCII digits.  (Underscore digit
grouping and non-ASCII digits are not modelled.) -/
def pyInt? (s : Name) : Option Int :=
  match pyStrip s with
  | '-' :: ds => if ds ≠ [] ∧ ds.all Char.isDigit then some (-(digitsToNat ds : Int)) else none
  | '+' :: ds => if ds ≠ [] ∧ ds.all Char.isDigit then some ((digitsToNat ds : Int)) else none
  | ds => if ds ≠ [] ∧ ds.all Char.isDigit then some ((digitsToNat ds : Int)) else none

/-- Digit expansion with fuel (any fuel `> n` is exact; see `natChars`). -/
def natCharsAux : Nat → Nat → Name
  | 0, _ => []
  | f + 1, n =>
    if n < 10 then [Nat.digitChar n]
    else natCharsAux f (n / 10) ++ [Nat.digitChar (n % 10)]

/-- Decimal numeral of a natural number (Python `str(n)` / f-string). -/
def natChars (n : Nat) : Name :=
  natCharsAux (n + 1) n

/-- Decimal numeral of an integer (Python `str(i)` / f-string). -/
def intChars (i : Int) : Name :=
  match i with
  | .ofNat n => natChars n
  | .negSucc n => '-' :: natChars (n + 1)

/-- One step of Python `s.replace(pat, rep)`, with fuel `f ≥ s.length`;
replaces non-overlapping occurrences left to right. -/
def replaceFuel (pat rep : Name) : Nat → Name → Name
  | 0, s => s
  | f + 1, s =>
    if pat ≠ [] ∧ startsWithN s pat then rep ++ replaceFuel pat rep f (s.drop pat.length)
    else
      match s with
      | [] => []
      | c :: t => c :: replaceFuel pat rep f t

/-- Python `s.replace(pat, rep)`.  (The patterns used by the program are all
non-empty literals; the empty-pattern corner of Python `replace` is not
modelled.) -/
def pyReplace (s pat rep : Name) : Name :=
  replaceFuel pat rep s.length s

/-! ## The XML data model

Structural model of the documents the program parses with `ElementTree`.
Only the parts the code inspects are structured: root-level `<plate>`
elements and their `<metadata key=… value=…>` children.  Everything else is
opaque (`otherP` / `otherR` stand for arbitrary other nodes). -/

/-- A child node of a `<plate>` element. -/
inductive PChild where
  /-- A `<metadata>` element; `key`/`value` are its attributes (absent = `none`). -/
  | metadata (key : Option Name) (value : Option Name)
  /-- Any other child node (opaque). -/
  | otherP (id : Nat)
deriving DecidableEq

/-- A root-level child node of a parsed XML document. -/
inductive RChild where
  /-- A `<plate>` element with its children. -/
  | plate (cs : List PChild)
  /-- Any other root-level node (opaque). -/
  | otherR (id : Nat)
deriving DecidableEq

/-- A parsed XML document (the root element's children). -/
structure XmlDoc where
  children : List RChild
deriving DecidableEq

/-- The `./plate` children of the root, as `root.findall("./plate")` yields. -/
def plateElems (d : XmlDoc) : List (List PChild) :=
  d.children.filterMap (fun c =>
    match c with
    | .plate cs => some cs
    | .otherR _ => none)

/-- `PlateInfo` dataclass of the source. -/
structure PlateInfo where
  plater_id : Int
  gcode_file : Name
  xml_plate_elem : List PChild
deriving DecidableEq

/-- The `plater_id` accumulator loop of `parse_model_settings_config`: the key
`plater_id` with a parseable integer value overwrites the accumulator, an
unparseable value leaves it unchanged (`except ValueError: pass`). -/
def platePlaterId : List PChild → Option Int → Option Int
  | [], acc => acc
  | .metadata k v :: rest, acc =>
    platePlaterId rest
      (if k = some (nm "plater_id") then
        match pyInt? (v.getD []) with
        | some n => some n
        | none => acc
      else acc)
  | .otherP _ :: rest, acc => platePlaterId rest acc

/-- The `gcode_file` accumulator loop of `parse_model_settings_config`. -/
def plateGcode : List PChild → Name → Name
  | [], acc => acc
  | .metadata k v :: rest, acc =>
    plateGcode rest (if k = some (nm "gcode_file") then v.getD [] else acc)
  | .otherP _ :: rest, acc => plateGcode rest acc

/-- `parse_model_settings_config`: plates with a parseable integer `plater_id`
are collected, the rest are skipped. -/
def parse_model_settings_config (d : XmlDoc) : List PlateInfo :=
  d.children.filterMap (fun c =>
    match c with
    | .plate cs =>
      (platePlaterId cs none).map (fun i =>
        { plater_id := i, gcode_file := plateGcode cs [], xml_plate_elem := cs })
    | .otherR _ => none)

/-! ## The plate-file name pattern

`PLATE_FILE_RX = re.compile(r"^(Metadata/)(.+?)_(\d+)(\.[^/]+)$")`, compiled
to an explicit matcher with Python `re` semantics: the lazy `(.+?)` takes the
shortest stem for which the rest of the pattern matches, `(\d+)` is a maximal
digit run (backtracking it cannot help, since a digit never equals `.`), and
`(\.[^/]+)$` is the rest of the name, which must start with a dot, be at least
two characters, and contain no slash.  `.` does not match a newline. -/

/-- Match `(\d+)(\.[^/]+)$` against `s`: a non-empty maximal digit run,
then a dot, then a non-empty slash-free remainder.  Returns (digits, ext). -/
def rxTail (s : Name) : Option (Name × Name) :=
  let ds := s.takeWhile Char.isDigit
  let rest := s.dropWhile Char.isDigit
  if ds = [] then none
  else
    match rest with
    | '.' :: t => if t ≠ [] ∧ '/' ∉ t then some (ds, '.' :: t) else none
    | _ => none

/-- Scan for the first position (lazy `(.+?)`) at which `_(\d+)(\.[^/]+)$`
matches; characters passed over are absorbed into the stem and must not be
newlines.  Returns (stem after the first kept character, digits, ext). -/
def rxFind : Name → Option (Name × Name × Name)
  | [] => none
  | c :: rest =>
    if c = '_' then
      match rxTail rest with
      | some (ds, ext) => some ([], ds, ext)
      | none => (rxFind rest).map (fun t => (c :: t.1, t.2.1, t.2.2))
    else if c = '\n' then none
    else (rxFind rest).map (fun t => (c :: t.1, t.2.1, t.2.2))

/-- `PLATE_FILE_RX.match(name)`: on success returns the groups
(stem, digit run, extension including the leading dot). -/
def PLATE_FILE_RX (n : Name) : Option (Name × Name × Name) :=
  if startsWithN n (nm "Metadata/") then
    match n.drop 9 with
    | [] => none
    | c :: rest =>
      if c = '\n' then none
      else (rxFind rest).map (fun t => (c :: t.1, t.2.1, t.2.2))
  else none

/-- `rename_or_drop_plate_file`: `(keep?, new name)`.  (The source's
`int(num_s)` cannot fail on an ASCII digit run, so the `ValueError` branch is
unreachable in the model.) -/
def rename_or_drop_plate_file (n : Name) (keep_plate_id new_plate_id : Int) : Bool × Name :=
  match PLATE_FILE_RX n with
  | none => (true, n)
  | some (stem, num_s, ext) =>
    if (digitsToNat num_s : Int) ≠ keep_plate_id then (false, n)
    else (true, nm "Metadata/" ++ stem ++ ('_' :: intChars new_plate_id) ++ ext)

/-! ## Archive model -/

/-- Contents of one archive entry, as read by `zipfile` + UTF-8 decode +
`ElementTree` parse (see the module docstring). -/
inductive EData where
  /-- Bytes that fail UTF-8 decoding. -/
  | bin
  /-- Bytes decoding to text `s`; `x` is `ET.fromstring s` (`none` = `ParseError`). -/
  | txt (s : Name) (x : Option XmlDoc)
deriving DecidableEq

/-- One archive entry. -/
structure ZEntry where
  name : Name
  data : EData
deriving DecidableEq

/-- The input container: its raw bytes (opaque) and its entry list. -/
structure Zip where
  fileBytes : List Nat
  entries : List ZEntry
deriving DecidableEq

/-- `zipfile.ZipFile.read(name)`: for duplicate names the last entry wins
(`NameToInfo` is overwritten in order). -/
def zread (z : Zip) (n : Name) : Option EData :=
  (z.entries.reverse.find? (fun e => e.name == n)).map (fun e => e.data)

/-- The non-junk, non-directory names (`nonjunk` in `flatten_wrapper_prefix`,
`normalized_names` in `convert` — the same filter). -/
def nonjunkNames (names : List Name) : List Name :=
  names.filter (fun n => !is_mac_junk n && !endsSlash n)

/-- `candidates.sort(key=len)` followed by `candidates[0]`: the first element
of minimal length (Python sort is stable). -/
def pickShortest : List Name → Option Name
  | l => l.foldl (fun acc c =>
      match acc with
      | none => some c
      | some a => if c.length < a.length then some c else acc) none

/-- `flatten_wrapper_prefix`: the detected wrapper prefix (the source also
returns the unchanged name list, which `convert` discards). -/
def flatten_wrapper_prefix (names : List Name) : Name :=
  let nonjunk := nonjunkNames names
  if nm "[Content_Types].xml" ∈ nonjunk then []
  else
    match pickShortest (nonjunk.filter (fun n => endsWithN n (nm "/[Content_Types].xml"))) with
    | none => []
    | some candidate =>
      let pfx := candidate.take (candidate.length - (nm "[Content_Types].xml").length)
      if nonjunk.all (fun n => startsWithN n pfx) then pfx else []

/-- `name[len(prefix):] if prefix and name.startswith(prefix) else name`. -/
def stripPfx (pfx n : Name) : Name :=
  if pfx = [] then n
  else if startsWithN n pfx then n.drop pfx.length else n

/-- Warnings `detect_exported_plate_id` can emit. -/
inductive DWarn where
  /-- "gcode_file listed but not found in archive". -/
  | gcodeNotFound
  /-- "Could not confidently detect exported plate …; defaulting to plate 1". -/
  | defaulted
deriving DecidableEq

/-- Errors modelling the `RuntimeError`s raised before any output is written,
plus the (unreachable, see `compute_output_path_spec`) exhaustion of the
fuel-bounded output-name search. -/
inductive ConvErr where
  /-- "Missing or unreadable Metadata/model_settings.config". -/
  | missingListing
  /-- "Failed to parse model_settings.config XML". -/
  | badListingXml
  /-- "No <plate> entries found in Metadata/model_settings.config". -/
  | noPlates
  /-- Fuel exhaustion in the output-name search (never happens). -/
  | outSearchFailed
deriving DecidableEq

/-- `candidates.sort(key=lambda t: t[0])` followed by `candidates[0]`: the
first candidate with minimal `plater_id` (Python sort is stable). -/
def pickMinFirst : List (Int × Name) → Option (Int × Name)
  | l => l.foldl (fun acc c =>
      match acc with
      | none => some c
      | some a => if c.1 < a.1 then some c else acc) none

/-- The candidate/fallback selection of `detect_exported_plate_id`, given the
parsed plates. -/
def detect_from_plates (plates : List PlateInfo) (names : List Name) (pfx : Name) :
    Int × Name × Option DWarn :=
  let candidates := (plates.filter (fun p =>
      !(pyStrip p.gcode_file).isEmpty && decide ((pfx ++ dropSlashes p.gcode_file) ∈ names))).map
    (fun p => (p.plater_id, pfx ++ dropSlashes p.gcode_file))
  match pickMinFirst candidates with
  | some c => (c.1, c.2, none)
  | none =>
    match plates.filter (fun p => !(pyStrip p.gcode_file).isEmpty) with
    | [p] => (p.plater_id, pfx ++ dropSlashes p.gcode_file, some .gcodeNotFound)
    | _ => (1, pfx ++ nm "Metadata/plate_1.gcode", some .defaulted)

/-- `detect_exported_plate_id`: read and parse the plate listing, then select
the exported plate.  Returns (plate id, G-code path in zip, warning). -/
def detect_exported_plate_id (z : Zip) (names : List Name) (pfx : Name) :
    Except ConvErr (Int × Name × Option DWarn) :=
  match zread z (pfx ++ nm "Metadata/model_settings.config") with
  | none => .error .missingListing
  | some .bin => .error .missingListing
  | some (.txt s x) =>
    if s = [] then .error .missingListing
    else
      match x with
      | none => .error .badListingXml
      | some d =>
        match parse_model_settings_config d with
        | [] => .error .noPlates
        | plates => .ok (detect_from_plates plates names pfx)

/-- `is_already_single_plate`: the fast-path check. -/
def is_already_single_plate (z : Zip) (names : List Name) (pfx : Name) : Bool :=
  match zread z (pfx ++ nm "Metadata/model_settings.config") with
  | none => false
  | some .bin => false
  | some (.txt s x) =>
    if s = [] then false
    else
      match x with
      | none => false
      | some d =>
        match parse_model_settings_config d with
        | [p] =>
          if p.plater_id ≠ 1 then false
          else if names.any (fun n =>
              !is_mac_junk n && !endsSlash n &&
              (match PLATE_FILE_RX (stripPfx pfx n) with
               | some t => decide (digitsToNat t.2.1 ≠ 1)
               | none => false)) then false
          else
            match zread z (pfx ++ nm "_rels/.rels") with
            | some (.txt r _) =>
              if r ≠ [] ∧ (containsSub r (nm "plate_2") || containsSub r (nm "plate_3")) then false
              else true
            | _ => true
        | _ => false

/-- `input_path.stem` / `input_path.suffix` (pathlib): split at the last dot,
unless it is the leading character or absent. -/
def pyStemSuffix (n : Name) : Name × Name :=
  let revSuffix := n.reverse.takeWhile (fun c => c ≠ '.')
  if revSuffix ≠ [] ∧ revSuffix.length + 1 < n.length then
    (n.take (n.length - (revSuffix.length + 1)), n.drop (n.length - (revSuffix.length + 1)))
  else (n, [])

/-- The base/extension split of `compute_output_path`: the `.gcode.3mf`
double extension is recognised case-insensitively and replaced by the literal
`".gcode.3mf"`; otherwise pathlib's stem/suffix split is used. -/
def splitOutName (n : Name) : Name × Name :=
  if endsWithN (n.map Char.toLower) (nm ".gcode.3mf") then
    (n.take (n.length - (nm ".gcode.3mf").length), nm ".gcode.3mf")
  else pyStemSuffix n

/-- The fuel-bounded `while True` search of `compute_output_path`, probing
`mk i`, `mk (i+1)`, … for a name not in `existing`. -/
def searchFree (existing : List Name) (mk : Nat → Name) : Nat → Nat → Option Name
  | 0, _ => none
  | f + 1, i => if mk i ∈ existing then searchFree existing mk f (i + 1) else some (mk i)

/-- The `i`-th candidate output name: `i = 0` is `<base>_plate<id><ext>`,
`i ≥ 1` is `<base>_plate<id>_<i><ext>`. -/
def outCand (inputName : Name) (pid : Int) (i : Nat) : Name :=
  let be := splitOutName inputName
  if i = 0 then be.1 ++ nm "_plate" ++ intChars pid ++ be.2
  else be.1 ++ nm "_plate" ++ intChars pid ++ ('_' :: natChars i) ++ be.2

/-- `compute_output_path`, over the set `existing` of file names already
present in the destination directory.  The fuel `existing.length + 1` always
suffices (`compute_output_path_spec`), so the result is never `none`. -/
def compute_output_path (existing : List Name) (inputName : Name) (pid : Int) : Option Name :=
  if outCand inputName pid 0 ∈ existing then
    searchFree existing (outCand inputName pid) (existing.length + 1) 1
  else some (outCand inputName pid 0)

/-! ## Rewrite functions -/

/-- Bytes of one output entry.  `xmlOut d` stands for the UTF-8 bytes of
`ET.tostring(d, encoding="utf-8", xml_declaration=True)`; `model3d s newp`
stands for the bytes of `rewrite_3dmodel_thumbnails(s, newp)` (the anchored
thumbnail text substitution, which no claim inspects and which is therefore
kept abstract). -/
inductive OutData where
  /-- Original bytes passed through (undecodable entry). -/
  | bin
  /-- UTF-8 bytes of the text `s`. -/
  | txt (s : Name)
  /-- Serialization of the rewritten XML document `d`. -/
  | xmlOut (d : XmlDoc)
  /-- Result of the 3D-model thumbnail substitution applied to `s`. -/
  | model3d (s : Name) (newp : Int)
deriving DecidableEq

/-- `rewrite_xml_cover_rels`: the two thumbnail path replacements in
`_rels/.rels`. -/
def rewrite_xml_cover_rels (s : Name) (old_plate new_plate : Int) : Name :=
  let s1 := pyReplace s (nm "/Metadata/plate_" ++ intChars old_plate ++ nm ".png")
    (nm "/Metadata/plate_" ++ intChars new_plate ++ nm ".png")
  pyReplace s1 (nm "/Metadata/plate_" ++ intChars old_plate ++ nm "_small.png")
    (nm "/Metadata/plate_" ++ intChars new_plate ++ nm "_small.png")

/-- The chain of per-plate file-reference replacements applied to a metadata
value inside the kept plate (`rewrite_model_settings_config`). -/
def rewriteValueRefs (keep newp : Int) (v : Name) : Name :=
  let r := fun (v : Name) (a b : String) =>
    pyReplace v (nm a ++ intChars keep ++ nm b) (nm a ++ intChars newp ++ nm b)
  let v1 := r v "plate_" ".gcode"
  let v2 := r v1 "plate_" ".png"
  let v3 := r v2 "plate_" "_small.png"
  let v4 := r v3 "plate_no_light_" ".png"
  let v5 := r v4 "top_" ".png"
  let v6 := r v5 "pick_" ".png"
  let v7 := r v6 "front_" ".png"
  let v8 := r v7 "back_" ".png"
  r v8 "plate_" ".json"

/-- The `plater_id` scan of `rewrite_model_settings_config`: unlike the parse
loop, an unparseable value resets the accumulator to `None`. -/
def rwPlaterId : List PChild → Option Int → Option Int
  | [], acc => acc
  | .metadata k v :: rest, acc =>
    rwPlaterId rest (if k = some (nm "plater_id") then pyInt? (v.getD []) else acc)
  | .otherP _ :: rest, acc => rwPlaterId rest acc

/-- The metadata rewrite applied to each `<metadata>` child of the kept plate:
`plater_id` is set to `new_plate_id`; other values get the file-reference
replacements, the `value` attribute being written only when it changed. -/
def rewriteKeptMeta (keep newp : Int) : PChild → PChild
  | .metadata k v =>
    if k = some (nm "plater_id") then .metadata k (some (intChars newp))
    else
      if rewriteValueRefs keep newp (v.getD []) ≠ v.getD [] then
        .metadata k (some (rewriteValueRefs keep newp (v.getD [])))
      else .metadata k v
  | .otherP i => .otherP i

/-- `rewrite_model_settings_config` on a decoded text `s` with parse result
`x`, as dispatched inside `convert`: a parse error (or the source's
"leave XML unchanged" returns) passes the original text through. -/
def rewrite_model_settings_config (s : Name) (x : Option XmlDoc) (keep newp : Int) : OutData :=
  match x with
  | none => .txt s
  | some d =>
    match plateElems d with
    | [] => .txt s
    | _ =>
      match (plateElems d).find? (fun cs => rwPlaterId cs none == some keep) with
      | none => .txt s
      | some keepCs =>
        .xmlOut ⟨(d.children.filter (fun c =>
            match c with
            | .plate _ => false
            | .otherR _ => true)) ++ [.plate (keepCs.map (rewriteKeptMeta keep newp))]⟩

/-- The `index` scan of `rewrite_slice_info_config`. -/
def rwIndexOf : List PChild → Option Int → Option Int
  | [], acc => acc
  | .metadata k v :: rest, acc =>
    rwIndexOf rest (if k = some (nm "index") then pyInt? (v.getD []) else acc)
  | .otherP _ :: rest, acc => rwIndexOf rest acc

/-- The `index` rewrite applied to each `<metadata>` child of the kept
slice-info plate. -/
def rewriteIndexMeta (newp : Int) : PChild → PChild
  | .metadata k v =>
    if k = some (nm "index") then .metadata k (some (intChars newp)) else .metadata k v
  | .otherP i => .otherP i

/-- `rewrite_slice_info_config`: keep the plate whose `index` matches, else
the first plate; renumber its `index`. -/
def rewrite_slice_info_config (s : Name) (x : Option XmlDoc) (keep newp : Int) : OutData :=
  match x with
  | none => .txt s
  | some d =>
    match plateElems d with
    | [] => .txt s
    | c0 :: _ =>
      let keepCs := ((plateElems d).find? (fun cs => rwIndexOf cs none == some keep)).getD c0
      .xmlOut ⟨(d.children.filter (fun c =>
          match c with
          | .plate _ => false
          | .otherR _ => true)) ++ [.plate (keepCs.map (rewriteIndexMeta newp))]⟩

/-- The per-entry content dispatch of `convert`'s rewrite loop, keyed on the
normalized (post-strip, post-rename) entry name.  A `bin` entry makes the
`data.decode("utf-8")` step raise; the exception is caught and the original
bytes pass through. -/
def dispatchRewrite (pid : Int) (newName : Name) (data : EData) : OutData :=
  if newName = nm "_rels/.rels" then
    match data with
    | .bin => .bin
    | .txt s _ => .txt (rewrite_xml_cover_rels s pid 1)
  else if newName = nm "Metadata/_rels/model_settings.config.rels" then
    match data with
    | .bin => .bin
    | .txt s _ => .txt (pyReplace s (nm "/Metadata/plate_" ++ intChars pid ++ nm ".gcode")
        (nm "/Metadata/plate_1.gcode"))
  else if newName = nm "Metadata/model_settings.config" then
    match data with
    | .bin => .bin
    | .txt s x => rewrite_model_settings_config s x pid 1
  else if newName = nm "Metadata/slice_info.config" then
    match data with
    | .bin => .bin
    | .txt s x => rewrite_slice_info_config s x pid 1
  else if newName = nm "3D/3dmodel.model" then
    match data with
    | .bin => .bin
    | .txt s _ => .model3d s 1
  else
    match data with
    | .bin => .bin
    | .txt s _ => .txt s

/-- One iteration of `convert`'s rewrite loop on the original entry name
`orig`: read, strip the wrapper prefix, drop or rename plate-numbered assets,
rewrite known documents.  `none` = entry dropped. -/
def processEntry (z : Zip) (pfx : Name) (pid : Int) (orig : Name) : Option (Name × OutData) :=
  match rename_or_drop_plate_file (stripPfx pfx orig) pid 1 with
  | (false, _) => none
  | (true, newName) =>
    some (newName, dispatchRewrite pid newName ((zread z orig).getD .bin))

/-- The result of a conversion: either the fast-path verbatim copy of the
input bytes, or a freshly built container with the given entry sequence;
both carry the computed output path. -/
inductive ConvOut where
  /-- Fast path: the output file holds exactly these bytes. -/
  | copied (bytes : List Nat) (outPath : Name)
  /-- Full rewrite: the output container holds these entries, in order. -/
  | built (entries : List (Name × OutData)) (outPath : Name)
deriving DecidableEq

/-- `convert(input_path, out_dir)`: `inputName` is the input file's base name
and `existing` the set of file names already present in the destination
directory. -/
def convert (z : Zip) (inputName : Name) (existing : List Name) : Except ConvErr ConvOut :=
  let names := z.entries.map (fun e => e.name)
  let pfx := flatten_wrapper_prefix names
  match detect_exported_plate_id z names pfx with
  | .error e => .error e
  | .ok (pid, _, _) =>
    match compute_output_path existing inputName pid with
    | none => .error .outSearchFailed
    | some outPath =>
      if is_already_single_plate z names pfx then .ok (.copied z.fileBytes outPath)
      else .ok (.built ((nonjunkNames names).filterMap (processEntry z pfx pid)) outPath)

/-! ## Claim-statement predicates -/

/-- The plate-numbered-asset pattern as the specification words it:
`Metadata/<stem>_<N><ext>` with `N` a non-empty run of digits and `ext`
starting with a dot and containing no slash (and, per the regex source,
a non-empty stem without newlines and a non-empty extension remainder). -/
def PlatePattern (n stem ds ext : Name) : Prop :=
  n = nm "Metadata/" ++ stem ++ '_' :: (ds ++ ext) ∧ stem ≠ [] ∧ '\n' ∉ stem ∧
  ds ≠ [] ∧ (∀ c ∈ ds, c.isDigit) ∧ ∃ t, ext = '.' :: t ∧ t ≠ [] ∧ '/' ∉ t

/-- The exported-plate detection contract as claim C2 words it, parameterised
by what "non-empty `gcode_file`" means (`blank`): the claim's literal reading
is `blank := List.isEmpty`, the code's behaviour is
`blank := fun g => (pyStrip g).isEmpty` (non-blank after `str.strip()`).
Checks of the claim: (1) if some plate has a non-blank `gcode_file` whose
prefixed referenced path exists among the entry names, the returned id is the
lowest such `plater_id`; (2) else if exactly one plate has a non-blank
`gcode_file`, its id is returned with the not-found warning; (3) else plate 1
with the assumed path `prefix + "Metadata/plate_1.gcode"` and a warning. -/
def detectSpecB (blank : Name → Bool) (plates : List PlateInfo) (names : List Name) (pfx : Name)
    (r : Int × Name × Option DWarn) : Bool :=
  let q := plates.filter (fun p =>
    !blank p.gcode_file && decide ((pfx ++ dropSlashes p.gcode_file) ∈ names))
  if q.isEmpty then
    match plates.filter (fun p => !blank p.gcode_file) with
    | [p] => decide (r.1 = p.plater_id) && decide (r.2.2 = some DWarn.gcodeNotFound)
    | _ => decide (r = (1, pfx ++ nm "Metadata/plate_1.gcode", some DWarn.defaulted))
  else q.all (fun p => decide (r.1 ≤ p.plater_id)) && q.any (fun p => decide (p.plater_id = r.1))

/-- A plate whose `gcode_file` is whitespace-only: the claim-literal
"non-empty" and the code's `.strip()` disagree on it (claim C2). -/
def plateBlankGcode : PlateInfo :=
  { plater_id := 5, gcode_file := nm " ", xml_plate_elem := [] }

/-- The plate list the program reads from the listing document: `none` when
the document is missing, undecodable, empty, or fails the XML parse. -/
def readListing (z : Zip) (pfx : Name) : Option (List PlateInfo) :=
  match zread z (pfx ++ nm "Metadata/model_settings.config") with
  | some (.txt s (some d)) =>
    if s = [] then none else some (parse_model_settings_config d)
  | _ => none

/-- The decoded text of the root relationship document, when present. -/
def relsText (z : Zip) (pfx : Name) : Option Name :=
  match zread z (pfx ++ nm "_rels/.rels") with
  | some (.txt r _) => some r
  | _ => none

/-- Fast-path condition (a): the plate listing contains exactly one plate. -/
def CondListingSingle (z : Zip) (pfx : Name) : Prop :=
  ∃ ps, readListing z pfx = some ps ∧ ps.length = 1

/-- Fast-path condition (b): every listed plate has id 1. -/
def CondListingIdOne (z : Zip) (pfx : Name) : Prop :=
  ∀ ps, readListing z pfx = some ps → ∀ p ∈ ps, p.plater_id = 1

/-- Fast-path condition (c): no (non-junk, non-directory) entry matches the
plate-numbered-asset pattern, after prefix stripping, with a number other
than 1.  (Junk and directory entries are excluded from all processing;
no such name can match the pattern in any case.) -/
def CondNoOtherAssets (names : List Name) (pfx : Name) : Prop :=
  ∀ n ∈ names, is_mac_junk n = false → endsSlash n = false →
    ∀ t : Name × Name × Name, PLATE_FILE_RX (stripPfx pfx n) = some t →
      digitsToNat t.2.1 = 1

/-- Fast-path condition (d) as the claim words it: the root relationship
document does not textually reference any plate number other than 1. -/
def CondRelsClean (z : Zip) (pfx : Name) : Prop :=
  ∀ r, relsText z pfx = some r → ∀ k : Nat, k ≠ 1 →
    containsSub r (nm "plate_" ++ natChars k) = false

/-- Fast-path condition (d) as the code actually checks it: the root
relationship document contains neither `plate_2` nor `plate_3` as a
substring. -/
def CondRelsNo23 (z : Zip) (pfx : Name) : Prop :=
  ∀ r, relsText z pfx = some r →
    containsSub r (nm "plate_2") = false ∧ containsSub r (nm "plate_3") = false

/-- The `value` attributes (with the `""` default for an absent attribute) of
the `plater_id`-keyed `<metadata>` children of a plate element, in order. -/
def platerValues (cs : List PChild) : List Name :=
  cs.filterMap (fun c =>
    match c with
    | .metadata k v => if k = some (nm "plater_id") then some (v.getD []) else none
    | .otherP _ => none)

/-- "The plate element carries an integer `plater_id`": exactly one
`plater_id`-keyed metadata child, whose value parses as an integer. -/
def UniquePlater (cs : List PChild) : Prop :=
  ∃ v i, platerValues cs = [v] ∧ pyInt? v = some i

/-- The listing document contains exactly one `<plate>` element and its
`plater_id` parses to 1 (conclusion of claim C1). -/
def ListingSingleOne (d : XmlDoc) : Prop :=
  ∃ cs, plateElems d = [cs] ∧ platePlaterId cs none = some 1

/-- Claim C1's conclusion over a conversion result: on the fast path the
output bytes are the input bytes, so the output's listing document is the
input's (`d`); on the full-rewrite path every output entry named
`Metadata/model_settings.config` is a rewritten document satisfying
`ListingSingleOne`, and at least one such entry exists. -/
def outSingleListing (out : ConvOut) (d : XmlDoc) : Prop :=
  match out with
  | .copied _ _ => ListingSingleOne d
  | .built es _ =>
    (∃ e ∈ es, e.1 = nm "Metadata/model_settings.config") ∧
    ∀ e ∈ es, e.1 = nm "Metadata/model_settings.config" →
      ∃ d2, e.2 = OutData.xmlOut d2 ∧ ListingSingleOne d2

/-- A single-plate listing with id 1 (claims C5/C4 instances). -/
def dSingle1 : XmlDoc := ⟨[.plate [.metadata (some (nm "plater_id")) (some (nm "1"))]]⟩

/-- A two-plate listing with ids 1 and 2 (claim C1 witness). -/
def dC1 : XmlDoc :=
  ⟨[.plate [.metadata (some (nm "plater_id")) (some (nm "1"))],
    .plate [.metadata (some (nm "plater_id")) (some (nm "2"))]]⟩

/-- An archive whose listing is the two-plate `dC1` (claim C1 witness). -/
def zC1 : Zip :=
  ⟨[5], [⟨nm "Metadata/model_settings.config", .txt (nm "ms") (some dC1)⟩]⟩

/-- An archive that passes the fast-path check although its root relationship
document textually references plate 4 (claim C5 counterexample). -/
def zC5 : Zip :=
  ⟨[3], [⟨nm "Metadata/model_settings.config", .txt (nm "ms") (some dSingle1)⟩,
         ⟨nm "_rels/.rels", .txt (nm "plate_4.png") none⟩]⟩

/-- An already-canonical archive: a single-plate listing with id 1 and
nothing else (claim C4 witness). -/
def zC4 : Zip :=
  ⟨[1, 2, 3], [⟨nm "Metadata/model_settings.config", .txt (nm "ms") (some dSingle1)⟩]⟩

/-- A plate listing whose only `<plate>` carries an unparseable `plater_id`
value (claim C10). -/
def dC10 : XmlDoc := ⟨[.plate [.metadata (some (nm "plater_id")) (some (nm "abc"))]]⟩

/-- An archive whose listing is `dC10` (claim C10). -/
def zC10 : Zip := ⟨[9], [⟨nm "Metadata/model_settings.config", .txt (nm "<config/>") (some dC10)⟩]⟩

/-- An already-canonical archive that also carries a `__MACOSX/` junk entry
(claim C6 counterexample: the fast path copies it verbatim). -/
def zC6 : Zip :=
  ⟨[4], [⟨nm "Metadata/model_settings.config", .txt (nm "ms") (some dSingle1)⟩,
         ⟨nm "__MACOSX/j", .bin⟩]⟩

/-- An already-canonical archive wrapped in a folder `X/`: the wrapper
prefix is detected, yet the fast path still copies the bytes verbatim
(claim C7 counterexample). -/
def zC7 : Zip :=
  ⟨[8], [⟨nm "X/[Content_Types].xml", .txt (nm "ct") none⟩,
         ⟨nm "X/Metadata/model_settings.config", .txt (nm "ms") (some dSingle1)⟩]⟩

/-- A two-plate archive wrapped in a folder `X/`: the full rewrite runs and
strips the wrapper prefix (claim C7 witness). -/
def zC7w : Zip :=
  ⟨[2], [⟨nm "X/[Content_Types].xml", .txt (nm "ct") none⟩,
         ⟨nm "X/Metadata/model_settings.config", .txt (nm "ms") (some dC1)⟩]⟩

/-- A wrapped two-plate archive carrying `A/__MACOSX/x`: the name is not junk
before stripping, so the full rewrite keeps it and emits it under the junk
name `__MACOSX/x` (claim C6 counterexample, rewrite part). -/
def zC6b : Zip :=
  ⟨[7], [⟨nm "A/[Content_Types].xml", .txt (nm "ct") none⟩,
         ⟨nm "A/Metadata/model_settings.config", .txt (nm "ms") (some dC1)⟩,
         ⟨nm "A/__MACOSX/x", .bin⟩]⟩

/-- A wrapped two-plate archive carrying `X/X/foo.txt`: stripping removes a
single leading `X/`, so the full rewrite emits `X/foo.txt`, which still
begins with the detected prefix (claim C7 counterexample, rewrite part). -/
def zC7b : Zip :=
  ⟨[6], [⟨nm "X/[Content_Types].xml", .txt (nm "ct") none⟩,
         ⟨nm "X/Metadata/model_settings.config", .txt (nm "ms") (some dC1)⟩,
         ⟨nm "X/X/foo.txt", .bin⟩]⟩

/-! ## Helper lemmas -/

theorem startsWithN_iff (n p : Name) : startsWithN n p = true ↔ ∃ t, n = p ++ t := by
  induction n generalizing p with
  | nil =>
    cases p with
    | nil => simp [startsWithN]
    | cons q qs => simp [startsWithN]
  | cons c cs ih =>
    cases p with
    | nil => simp [startsWithN]
    | cons q qs =>
      simp only [startsWithN, Bool.and_eq_true, beq_iff_eq, ih]
      constructor
      · rintro ⟨rfl, t, rfl⟩
        exact ⟨t, rfl⟩
      · rintro ⟨t, h⟩
        simp only [List.cons_append, List.cons.injEq] at h
        exact ⟨h.1, t, h.2⟩

theorem digitsToNat_append_singleton (xs : Name) (c : Char) :
    digitsToNat (xs ++ [c]) = 10 * digitsToNat xs + (c.toNat - 48) := by
  simp [digitsToNat, List.foldl_append]

theorem digitChar_toNat_sub : ∀ d, d < 10 → (Nat.digitChar d).toNat - 48 = d := by decide

theorem digitsToNat_natCharsAux (f : Nat) :
    ∀ n, n < f → digitsToNat (natCharsAux f n) = n := by
  induction f with
  | zero => intro n h; omega
  | succ f ih =>
    intro n h
    rw [natCharsAux]
    by_cases h10 : n < 10
    · rw [if_pos h10]
      have hd : digitsToNat [Nat.digitChar n] = (Nat.digitChar n).toNat - 48 := by
        simp [digitsToNat]
      rw [hd, digitChar_toNat_sub n h10]
    · rw [if_neg h10]
      have hdiv : n / 10 < f := by
        have := Nat.div_lt_self (show 0 < n by omega) (show 1 < 10 by omega)
        omega
      rw [digitsToNat_append_singleton, ih (n / 10) hdiv,
        digitChar_toNat_sub (n % 10) (Nat.mod_lt n (by omega))]
      omega

theorem digitsToNat_natChars (n : Nat) : digitsToNat (natChars n) = n :=
  digitsToNat_natCharsAux (n + 1) n (by omega)

theorem natChars_inj {m n : Nat} (h : natChars m = natChars n) : m = n := by
  have hm := digitsToNat_natChars m
  have hn := digitsToNat_natChars n
  rw [← hm, ← hn, h]

theorem outCand_pos_inj (inputName : Name) (pid : Int) {i j : Nat}
    (h : outCand inputName pid (i + 1) = outCand inputName pid (j + 1)) : i = j := by
  unfold outCand at h
  simp only [Nat.add_one_ne_zero, if_false] at h
  have h1 := List.append_cancel_right h
  have h2 := List.append_cancel_left h1
  simp only [List.cons.injEq, true_and] at h2
  exact Nat.succ_injective (natChars_inj h2)

theorem searchFree_none (existing : List Name) (mk : Nat → Name) :
    ∀ f i, searchFree existing mk f i = none → ∀ k, i ≤ k → k < i + f → mk k ∈ existing := by
  intro f
  induction f with
  | zero => intro i _ k h1 h2; omega
  | succ f ih =>
    intro i h k h1 h2
    rw [searchFree] at h
    split at h
    · rcases Nat.eq_or_lt_of_le h1 with rfl | hlt
      · assumption
      · exact ih (i + 1) h k hlt (by omega)
    · exact absurd h (by simp)

theorem searchFree_some (existing : List Name) (mk : Nat → Name) :
    ∀ f i r, searchFree existing mk f i = some r →
      ∃ j, i ≤ j ∧ r = mk j ∧ mk j ∉ existing ∧ ∀ k, i ≤ k → k < j → mk k ∈ existing := by
  intro f
  induction f with
  | zero => intro i r h; exact absurd h (by simp [searchFree])
  | succ f ih =>
    intro i r h
    rw [searchFree] at h
    split at h
    · obtain ⟨j, hj1, hj2, hj3, hj4⟩ := ih (i + 1) r h
      refine ⟨j, by omega, hj2, hj3, fun k hk1 hk2 => ?_⟩
      rcases Nat.eq_or_lt_of_le hk1 with rfl | hlt
      · assumption
      · exact hj4 k hlt hk2
    · cases h
      exact ⟨i, Nat.le_refl i, rfl, by assumption, fun k hk1 hk2 => by omega⟩

theorem searchFree_outCand_ne_none (existing : List Name) (inputName : Name) (pid : Int) :
    searchFree existing (outCand inputName pid) (existing.length + 1) 1 ≠ none := by
  intro hsf
  have hall := searchFree_none existing (outCand inputName pid) _ _ hsf
  set L := existing.length with hL
  have hsub : ((List.range (L + 1)).map (fun t => outCand inputName pid (t + 1))) ⊆ existing := by
    intro x hx
    rw [List.mem_map] at hx
    obtain ⟨t, ht, rfl⟩ := hx
    rw [List.mem_range] at ht
    exact hall (t + 1) (by omega) (by omega)
  have hnd : ((List.range (L + 1)).map (fun t => outCand inputName pid (t + 1))).Nodup := by
    refine List.Nodup.map ?_ (List.nodup_range _)
    intro a b hab
    exact outCand_pos_inj inputName pid hab
  have hlen := (List.subperm_of_subset hnd hsub).length_le
  simp only [List.length_map, List.length_range] at hlen
  omega

theorem compute_output_path_isSome (existing : List Name) (inputName : Name) (pid : Int) :
    ∃ r, compute_output_path existing inputName pid = some r ∧ r ∉ existing := by
  unfold compute_output_path
  split
  · rcases hsf : searchFree existing (outCand inputName pid) (existing.length + 1) 1 with _ | r
    · exact absurd hsf (searchFree_outCand_ne_none existing inputName pid)
    · obtain ⟨j, _, hj2, hj3, _⟩ := searchFree_some existing (outCand inputName pid) _ _ _ hsf
      exact ⟨r, rfl, hj2 ▸ hj3⟩
  · exact ⟨outCand inputName pid 0, rfl, by assumption⟩

/-! ## Claim C9 -/

/-- **C9**: for every input path (with the `.gcode.3mf` double extension,
recognised case-insensitively) and destination directory, the computed output
path is `<base>_plate<exported_plate_id>.gcode.3mf` when that name is free;
otherwise it is the first free name in the sequence
`<base>_plate<id>_1.gcode.3mf`, `<base>_plate<id>_2.gcode.3mf`, …
(first-fit), and the returned path never names an already-existing file. -/
theorem C9_output_path_first_fit (existing : List Name) (inputName : Name) (pid : Int)
    (h : endsWithN (inputName.map Char.toLower) (nm ".gcode.3mf") = true) :
    ∃ r, compute_output_path existing inputName pid = some r ∧ r ∉ existing ∧
      ((outCand inputName pid 0 ∉ existing ∧ r = outCand inputName pid 0) ∨
       (outCand inputName pid 0 ∈ existing ∧ ∃ i, 1 ≤ i ∧ r = outCand inputName pid i ∧
         ∀ j, 1 ≤ j → j < i → outCand inputName pid j ∈ existing)) ∧
      outCand inputName pid 0 =
        inputName.take (inputName.length - 10) ++ nm "_plate" ++ intChars pid ++
          nm ".gcode.3mf" ∧
      (∀ i, outCand inputName pid (i + 1) =
        inputName.take (inputName.length - 10) ++ nm "_plate" ++ intChars pid ++
          ('_' :: natChars (i + 1)) ++ nm ".gcode.3mf") := by
  have hsplit : splitOutName inputName =
      (inputName.take (inputName.length - 10), nm ".gcode.3mf") := by
    unfold splitOutName
    rw [if_pos h, show (nm ".gcode.3mf").length = 10 from rfl]
  have hshape0 : outCand inputName pid 0 =
      inputName.take (inputName.length - 10) ++ nm "_plate" ++ intChars pid ++
        nm ".gcode.3mf" := by
    unfold outCand
    rw [hsplit]
    simp
  have hshapeS : ∀ i, outCand inputName pid (i + 1) =
      inputName.take (inputName.length - 10) ++ nm "_plate" ++ intChars pid ++
        ('_' :: natChars (i + 1)) ++ nm ".gcode.3mf" := by
    intro i
    unfold outCand
    rw [hsplit]
    simp
  unfold compute_output_path
  split
  · rcases hsf : searchFree existing (outCand inputName pid) (existing.length + 1) 1 with _ | r
    · exact absurd hsf (searchFree_outCand_ne_none existing inputName pid)
    · obtain ⟨j, hj1, hj2, hj3, hj4⟩ := searchFree_some existing (outCand inputName pid) _ _ _ hsf
      exact ⟨r, rfl, hj2 ▸ hj3,
        Or.inr ⟨by assumption, j, hj1, hj2, fun k hk1 hk2 => hj4 k hk1 hk2⟩, hshape0, hshapeS⟩
  · exact ⟨outCand inputName pid 0, rfl, by assumption,
      Or.inl ⟨by assumption, rfl⟩, hshape0, hshapeS⟩

/-- Witness for C9 at a concrete destination where `foo_plate2.gcode.3mf` and
`foo_plate2_1.gcode.3mf` already exist. -/
theorem C9_output_path_first_fit_witness :
    ∃ r, compute_output_path [nm "foo_plate2.gcode.3mf", nm "foo_plate2_1.gcode.3mf"]
        (nm "foo.gcode.3mf") 2 = some r ∧
      r ∉ [nm "foo_plate2.gcode.3mf", nm "foo_plate2_1.gcode.3mf"] ∧
      ((outCand (nm "foo.gcode.3mf") 2 0 ∉
          [nm "foo_plate2.gcode.3mf", nm "foo_plate2_1.gcode.3mf"] ∧
        r = outCand (nm "foo.gcode.3mf") 2 0) ∨
       (outCand (nm "foo.gcode.3mf") 2 0 ∈
          [nm "foo_plate2.gcode.3mf", nm "foo_plate2_1.gcode.3mf"] ∧
        ∃ i, 1 ≤ i ∧ r = outCand (nm "foo.gcode.3mf") 2 i ∧
          ∀ j, 1 ≤ j → j < i → outCand (nm "foo.gcode.3mf") 2 j ∈
            [nm "foo_plate2.gcode.3mf", nm "foo_plate2_1.gcode.3mf"])) ∧
      outCand (nm "foo.gcode.3mf") 2 0 =
        (nm "foo.gcode.3mf").take ((nm "foo.gcode.3mf").length - 10) ++ nm "_plate" ++
          intChars 2 ++ nm ".gcode.3mf" ∧
      (∀ i, outCand (nm "foo.gcode.3mf") 2 (i + 1) =
        (nm "foo.gcode.3mf").take ((nm "foo.gcode.3mf").length - 10) ++ nm "_plate" ++
          intChars 2 ++ ('_' :: natChars (i + 1)) ++ nm ".gcode.3mf") :=
  C9_output_path_first_fit [nm "foo_plate2.gcode.3mf", nm "foo_plate2_1.gcode.3mf"]
    (nm "foo.gcode.3mf") 2 (by decide)

/-! ## Claim C3: the plate-file pattern -/

theorem takeWhile_digits_append (ds t : Name) (hdig : ∀ c ∈ ds, c.isDigit) :
    (ds ++ '.' :: t).takeWhile Char.isDigit = ds ∧
    (ds ++ '.' :: t).dropWhile Char.isDigit = '.' :: t := by
  induction ds with
  | nil => simp [List.takeWhile_cons, List.dropWhile_cons]
  | cons c cs ih =>
    have hc : c.isDigit = true := hdig c (List.mem_cons_self c cs)
    have := ih (fun x hx => hdig x (List.mem_cons_of_mem c hx))
    simp [List.takeWhile_cons, List.dropWhile_cons, hc, this.1, this.2]

theorem rxTail_some {s ds ext : Name} (h : rxTail s = some (ds, ext)) :
    s = ds ++ ext ∧ ds ≠ [] ∧ (∀ c ∈ ds, c.isDigit) ∧
      ∃ t, ext = '.' :: t ∧ t ≠ [] ∧ '/' ∉ t := by
  unfold rxTail at h
  simp only [] at h
  split at h
  · exact absurd h (by simp)
  · rename_i hne
    split at h
    · rename_i t hdw
      split at h
      · rename_i hcond
        rw [Option.some.injEq, Prod.mk.injEq] at h
        obtain ⟨rfl, rfl⟩ := h
        refine ⟨?_, hne, fun c hc => List.mem_takeWhile_imp hc, t, rfl, hcond.1, hcond.2⟩
        rw [← hdw]
        exact (List.takeWhile_append_dropWhile Char.isDigit s).symm
      · exact absurd h (by simp)
    · exact absurd h (by simp)

theorem rxTail_complete {ds t : Name} (hds : ds ≠ []) (hdig : ∀ c ∈ ds, c.isDigit)
    (ht : t ≠ []) (hslash : '/' ∉ t) : rxTail (ds ++ '.' :: t) = some (ds, '.' :: t) := by
  obtain ⟨h1, h2⟩ := takeWhile_digits_append ds t hdig
  unfold rxTail
  simp only [h1, h2]
  rw [if_neg hds]
  rw [if_pos ⟨ht, hslash⟩]

theorem rxFind_some : ∀ {s st ds ext : Name}, rxFind s = some (st, ds, ext) →
    s = st ++ '_' :: (ds ++ ext) ∧ '\n' ∉ st ∧ ds ≠ [] ∧ (∀ c ∈ ds, c.isDigit) ∧
      ∃ t, ext = '.' :: t ∧ t ≠ [] ∧ '/' ∉ t := by
  intro s
  induction s with
  | nil => intro st ds ext h; exact absurd h (by simp [rxFind])
  | cons c rest ih =>
    intro st ds ext h
    rw [rxFind] at h
    split at h
    · rename_i hc
      subst hc
      split at h
      · rename_i ds' ext' htail
        rw [Option.some.injEq, Prod.mk.injEq, Prod.mk.injEq] at h
        obtain ⟨rfl, rfl, rfl⟩ := h
        obtain ⟨hs, h2, h3, h4⟩ := rxTail_some htail
        exact ⟨by rw [hs]; rfl, by simp, h2, h3, h4⟩
      · rw [Option.map_eq_some'] at h
        obtain ⟨⟨st', ds', ext'⟩, hfind, heq⟩ := h
        rw [Prod.mk.injEq, Prod.mk.injEq] at heq
        obtain ⟨rfl, rfl, rfl⟩ := heq
        obtain ⟨hs, h2, h3, h4, h5⟩ := ih hfind
        refine ⟨by rw [hs]; rfl, ?_, h3, h4, h5⟩
        simp only [List.mem_cons, not_or]
        exact ⟨by decide, h2⟩
    · split at h
      · exact absurd h (by simp)
      · rw [Option.map_eq_some'] at h
        obtain ⟨⟨st', ds', ext'⟩, hfind, heq⟩ := h
        rw [Prod.mk.injEq, Prod.mk.injEq] at heq
        obtain ⟨rfl, rfl, rfl⟩ := heq
        obtain ⟨hs, h2, h3, h4, h5⟩ := ih hfind
        rename_i hnl
        refine ⟨by rw [hs]; rfl, ?_, h3, h4, h5⟩
        simp only [List.mem_cons, not_or]
        exact ⟨fun hx => hnl hx.symm, h2⟩

theorem rxFind_complete : ∀ {st : Name} {ds t : Name}, '\n' ∉ st → ds ≠ [] →
    (∀ c ∈ ds, c.isDigit) → t ≠ [] → '/' ∉ t →
    (rxFind (st ++ '_' :: (ds ++ '.' :: t))).isSome = true := by
  intro st
  induction st with
  | nil =>
    intro ds t _ hds hdig ht hsl
    rw [List.nil_append, rxFind, if_pos rfl, rxTail_complete hds hdig ht hsl]
    rfl
  | cons c st' ih =>
    intro ds t hnl hds hdig ht hsl
    have hc : c ≠ '\n' := fun hc0 => hnl (hc0 ▸ List.mem_cons_self c st')
    have hst' : '\n' ∉ st' := fun hx => hnl (List.mem_cons_of_mem c hx)
    have hrec := ih hst' hds hdig ht hsl
    rw [List.cons_append, rxFind]
    by_cases h_ : c = '_'
    · rw [if_pos h_]
      rcases htail2 : rxTail (st' ++ '_' :: (ds ++ '.' :: t)) with _ | pr
      · simp only [htail2, Option.isSome_map']
        exact hrec
      · simp only [htail2, Option.isSome_some]
    · rw [if_neg h_, if_neg hc, Option.isSome_map']
      exact hrec

theorem PLATE_FILE_RX_isSome_iff (n : Name) :
    (PLATE_FILE_RX n).isSome = true ↔ ∃ stem ds ext, PlatePattern n stem ds ext := by
  constructor
  · intro h
    unfold PLATE_FILE_RX at h
    split at h
    · rename_i hsw
      obtain ⟨tail, htail⟩ := (startsWithN_iff n (nm "Metadata/")).mp hsw
      have h9 : (9 : Nat) = (nm "Metadata/").length := rfl
      have hdrop : n.drop 9 = tail := by
        rw [htail, h9]
        exact List.drop_left _ _
      split at h
      · simp at h
      · rename_i c rest hcr
        split at h
        · simp at h
        · rename_i hcnl
          rw [Option.isSome_map'] at h
          rcases hfind : rxFind rest with _ | ⟨st, ds, ext⟩
          · rw [hfind] at h; simp at h
          · obtain ⟨hs, h2, h3, h4, h5⟩ := rxFind_some hfind
            refine ⟨c :: st, ds, ext, ?_, by simp, ?_, h3, h4, h5⟩
            · have htc : tail = c :: rest := by rw [← hdrop, hcr]
              rw [htail, htc, hs]
              simp
            · simp only [List.mem_cons, not_or]
              exact ⟨fun hx => hcnl hx.symm, h2⟩
    · simp at h
  · rintro ⟨stem, ds, ext, hn, hstem, hnl, hds, hdig, t, rfl, ht, hsl⟩
    unfold PLATE_FILE_RX
    have hsw : startsWithN n (nm "Metadata/") = true :=
      (startsWithN_iff n (nm "Metadata/")).mpr ⟨_, hn⟩
    rw [if_pos hsw]
    cases stem with
    | nil => exact absurd rfl hstem
    | cons c st' =>
      have h9 : (9 : Nat) = (nm "Metadata/").length := rfl
      have hdrop : n.drop 9 = c :: (st' ++ '_' :: (ds ++ '.' :: t)) := by
        rw [hn, h9]
        have hdl := List.drop_left (nm "Metadata/") (c :: st' ++ '_' :: (ds ++ '.' :: t))
        simp only [List.cons_append] at hdl ⊢
        exact hdl
      rw [hdrop]
      have hc : c ≠ '\n' := fun hx => hnl (hx ▸ List.mem_cons_self c st')
      simp only [if_neg hc, Option.isSome_map']
      exact rxFind_complete (fun hx => hnl (List.mem_cons_of_mem c hx)) hds hdig ht hsl

/-- **C3**: for every post-strip entry name, (i) the plate-file regex matches
exactly the names of the claimed pattern `Metadata/<stem>_<N><ext>`;
(ii) a non-matching name is kept under its unchanged name; (iii) a matching
name is dropped exactly when the integer `N` differs from `keep_plate_id`,
and otherwise renamed to `Metadata/<stem>_1<ext>` (the digit run replaced by
`new_plate_id = 1` in the same position).  The groups in (iii) are those of
the regex's leftmost (lazy-stem) match. -/
theorem C3_plate_asset_rule (n : Name) (keep : Int) :
    ((PLATE_FILE_RX n).isSome = true ↔ ∃ stem ds ext, PlatePattern n stem ds ext) ∧
    (PLATE_FILE_RX n = none → rename_or_drop_plate_file n keep 1 = (true, n)) ∧
    (∀ stem ds ext, PLATE_FILE_RX n = some (stem, ds, ext) →
      rename_or_drop_plate_file n keep 1 =
        if (digitsToNat ds : Int) ≠ keep then (false, n)
        else (true, nm "Metadata/" ++ stem ++ ('_' :: nm "1") ++ ext)) := by
  refine ⟨PLATE_FILE_RX_isSome_iff n, ?_, ?_⟩
  · intro h
    unfold rename_or_drop_plate_file
    rw [h]
  · intro stem ds ext h
    unfold rename_or_drop_plate_file
    rw [h]
    have h1 : intChars 1 = nm "1" := by decide
    simp only [h1]

/-- Witness for C3: `Metadata/plate_2.png` is dropped when the kept plate is 3,
and renamed to `Metadata/plate_1.png` when the kept plate is 2. -/
theorem C3_plate_asset_rule_witness :
    rename_or_drop_plate_file (nm "Metadata/plate_2.png") 3 1 =
      (false, nm "Metadata/plate_2.png") ∧
    rename_or_drop_plate_file (nm "Metadata/plate_2.png") 2 1 =
      (true, nm "Metadata/plate_1.png") := by
  have h3 := (C3_plate_asset_rule (nm "Metadata/plate_2.png") 3).2.2
    (nm "plate") (nm "2") (nm ".png") (by decide)
  have h2 := (C3_plate_asset_rule (nm "Metadata/plate_2.png") 2).2.2
    (nm "plate") (nm "2") (nm ".png") (by decide)
  rw [if_pos (by decide)] at h3
  rw [if_neg (by decide)] at h2
  exact ⟨h3, by rw [h2]; decide⟩

/-! ## Claim C2: exported-plate detection -/

theorem pickMinFirst_step_ne_none (acc : Option (Int × Name)) (c : Int × Name) :
    (match acc with
     | none => some c
     | some a => if c.1 < a.1 then some c else acc) ≠ none := by
  rcases acc with _ | a
  · simp
  · by_cases hlt : c.1 < a.1 <;> simp [hlt]

theorem pickMinFirst_foldl_mem :
    ∀ (l : List (Int × Name)) (acc : Option (Int × Name)) (r : Int × Name),
      l.foldl (fun acc c =>
        match acc with
        | none => some c
        | some a => if c.1 < a.1 then some c else acc) acc = some r →
      r ∈ l ∨ acc = some r := by
  intro l
  induction l with
  | nil => intro acc r h; rw [List.foldl_nil] at h; exact Or.inr h
  | cons c t ih =>
    intro acc r h
    rw [List.foldl_cons] at h
    rcases ih _ r h with hm | hs
    · exact Or.inl (List.mem_cons_of_mem c hm)
    · rcases acc with _ | a
      · simp only [Option.some.injEq] at hs
        exact Or.inl (hs ▸ List.mem_cons_self c t)
      · by_cases hlt : c.1 < a.1
        · simp only [hlt, if_true, Option.some.injEq] at hs
          exact Or.inl (hs ▸ List.mem_cons_self c t)
        · simp only [hlt, if_false] at hs
          exact Or.inr hs

theorem pickMinFirst_foldl_min :
    ∀ (l : List (Int × Name)) (acc : Option (Int × Name)) (r : Int × Name),
      l.foldl (fun acc c =>
        match acc with
        | none => some c
        | some a => if c.1 < a.1 then some c else acc) acc = some r →
      (∀ x ∈ l, r.1 ≤ x.1) ∧ (∀ a, acc = some a → r.1 ≤ a.1) := by
  intro l
  induction l with
  | nil =>
    intro acc r h
    rw [List.foldl_nil] at h
    refine ⟨fun x hx => absurd hx (List.not_mem_nil x), fun a ha => ?_⟩
    rw [ha, Option.some.injEq] at h
    rw [h]
  | cons c t ih =>
    intro acc r h
    rw [List.foldl_cons] at h
    obtain ⟨h1, h2⟩ := ih _ r h
    have hc : r.1 ≤ c.1 := by
      rcases acc with _ | a
      · exact h2 c rfl
      · by_cases hlt : c.1 < a.1
        · exact h2 c (by simp [hlt])
        · have := h2 a (by simp [hlt])
          omega
    refine ⟨fun x hx => ?_, fun a ha => ?_⟩
    · rcases List.mem_cons.mp hx with rfl | hxm
      · exact hc
      · exact h1 x hxm
    · subst ha
      by_cases hlt : c.1 < a.1
      · have := h2 c (by simp [hlt])
        omega
      · exact h2 a (by simp [hlt])

theorem pickMinFirst_foldl_none :
    ∀ (l : List (Int × Name)) (acc : Option (Int × Name)),
      l.foldl (fun acc c =>
        match acc with
        | none => some c
        | some a => if c.1 < a.1 then some c else acc) acc = none →
      acc = none ∧ l = [] := by
  intro l
  induction l with
  | nil => intro acc h; rw [List.foldl_nil] at h; exact ⟨h, rfl⟩
  | cons c t ih =>
    intro acc h
    rw [List.foldl_cons] at h
    obtain ⟨hstep, _⟩ := ih _ h
    exact absurd hstep (pickMinFirst_step_ne_none acc c)

theorem pickMinFirst_none {l : List (Int × Name)} (h : pickMinFirst l = none) : l = [] :=
  (pickMinFirst_foldl_none l none h).2

theorem pickMinFirst_some {l : List (Int × Name)} {r : Int × Name}
    (h : pickMinFirst l = some r) : r ∈ l ∧ ∀ x ∈ l, r.1 ≤ x.1 := by
  unfold pickMinFirst at h
  constructor
  · rcases pickMinFirst_foldl_mem l none r h with hm | hs
    · exact hm
    · exact absurd hs (by simp)
  · exact (pickMinFirst_foldl_min l none r h).1

/-- **C2 (counterexample)**: the claim as stated fails on a plate whose
`gcode_file` is the whitespace-only string `" "`: that string is non-empty, so
the claim's second branch demands plate id 5 with the not-found warning, but
the code strips it to empty and falls through to the default of plate 1. -/
theorem C2_counterexample :
    detectSpecB (fun g => g.isEmpty) [plateBlankGcode] [] []
      (detect_from_plates [plateBlankGcode] [] []) = false := by
  decide

/-- **C2 (amended)**: for every archive, exported-plate detection returns: the
lowest `plater_id` among plates whose `gcode_file` is non-blank (non-empty
after stripping whitespace, per `str.strip()`) and whose prefixed referenced
path exists among the archive's entry names, if such plates exist; otherwise,
if exactly one plate has a non-blank `gcode_file`, that plate's id with the
file-not-found warning; otherwise plate id 1 with the assumed G-code path
`prefix + "Metadata/plate_1.gcode"` and a warning.  (`plates` is the parsed
plate list `detect_exported_plate_id` computes from the listing document.) -/
theorem C2_detection_amended (plates : List PlateInfo) (names : List Name) (pfx : Name) :
    detectSpecB (fun g => (pyStrip g).isEmpty) plates names pfx
      (detect_from_plates plates names pfx) = true := by
  unfold detect_from_plates detectSpecB
  simp only []
  rcases hpm : pickMinFirst ((plates.filter (fun p =>
      !(pyStrip p.gcode_file).isEmpty && decide ((pfx ++ dropSlashes p.gcode_file) ∈ names))).map
      (fun p => (p.plater_id, pfx ++ dropSlashes p.gcode_file))) with _ | c
  · have hF0 : plates.filter (fun p =>
        !(pyStrip p.gcode_file).isEmpty &&
          decide ((pfx ++ dropSlashes p.gcode_file) ∈ names)) = [] :=
      List.map_eq_nil_iff.mp (pickMinFirst_none hpm)
    have hnone : pickMinFirst ([] : List (Int × Name)) = none := rfl
    simp only [hF0, List.map_nil, hnone, List.isEmpty_nil, if_true]
    rcases hflt : plates.filter (fun p => !(pyStrip p.gcode_file).isEmpty) with _ | ⟨p, rest⟩
    · simp [hflt]
    · rcases rest with _ | ⟨q, rest2⟩
      · simp [hflt]
      · simp [hflt]
  · have hmem := pickMinFirst_some hpm
    have hFne : plates.filter (fun p =>
        !(pyStrip p.gcode_file).isEmpty &&
          decide ((pfx ++ dropSlashes p.gcode_file) ∈ names)) ≠ [] := by
      intro h0
      rw [h0] at hpm
      exact absurd hpm (by simp [pickMinFirst])
    have hqe : (plates.filter (fun p =>
        !(pyStrip p.gcode_file).isEmpty &&
          decide ((pfx ++ dropSlashes p.gcode_file) ∈ names))).isEmpty = false := by
      rcases hflt : plates.filter (fun p =>
          !(pyStrip p.gcode_file).isEmpty &&
            decide ((pfx ++ dropSlashes p.gcode_file) ∈ names)) with _ | _
      · exact absurd hflt hFne
      · rw [hflt]
        exact rfl
    simp only [hpm, hqe, Bool.false_eq_true, if_false, Bool.and_eq_true, List.all_eq_true,
      List.any_eq_true]
    constructor
    · intro p hp
      have hmm := hmem.2 _ (List.mem_map_of_mem
        (fun p => (p.plater_id, pfx ++ dropSlashes p.gcode_file)) hp)
      simpa using hmm
    · obtain ⟨x, hx, hxc⟩ := List.mem_map.mp hmem.1
      refine ⟨x, hx, ?_⟩
      have : x.plater_id = c.1 := by rw [← hxc]
      simpa using this

/-! ## Claims C8 and C10: fatal listing errors -/

/-- **C8**: if the plate-listing metadata document (at
`prefix + "Metadata/model_settings.config"`) is missing, cannot be decoded,
is empty, fails the XML parse, or yields no plate entries, then `convert`
raises an error; no output is produced (in the model an `.error` result
carries no output, matching the source where the error is raised before the
output archive is opened). -/
theorem C8_listing_failure_aborts (z : Zip) (inputName : Name) (existing : List Name)
    (h : zread z ( flatten_wrapper_prefix (z.entries.map (fun e => e.name)) ++
        nm "Metadata/model_settings.config") = none ∨
      zread z ( flatten_wrapper_prefix (z.entries.map (fun e => e.name)) ++
        nm "Metadata/model_settings.config") = some .bin ∨
      (∃ s x, zread z ( flatten_wrapper_prefix (z.entries.map (fun e => e.name)) ++
          nm "Metadata/model_settings.config") = some (.txt s x) ∧
        (s = [] ∨ x = none ∨ ∃ d, x = some d ∧ parse_model_settings_config d = []))) :
    ∃ e, convert z inputName existing = .error e := by
  have hdet : ∃ e, detect_exported_plate_id z (z.entries.map (fun e => e.name))
      ( flatten_wrapper_prefix (z.entries.map (fun e => e.name))) = .error e := by
    unfold detect_exported_plate_id
    rcases h with h | h | ⟨s, x, hsx, hcase⟩
    · rw [h]
      exact ⟨_, rfl⟩
    · rw [h]
      exact ⟨_, rfl⟩
    · by_cases hse : s = []
      · simp only [hsx, if_pos hse]
        exact ⟨_, rfl⟩
      · rcases hcase with hs0 | hx | ⟨d, hxd, hpl⟩
        · exact absurd hs0 hse
        · simp only [hsx, if_neg hse, hx]
          exact ⟨_, rfl⟩
        · simp only [hsx, if_neg hse, hxd, hpl]
          exact ⟨_, rfl⟩
  obtain ⟨e, he⟩ := hdet
  refine ⟨e, ?_⟩
  unfold convert
  simp only [he]

/-- Witness for C8: an archive with no entries at all has no listing, so
conversion errors out. -/
theorem C8_listing_failure_aborts_witness :
    ∃ e, convert ⟨[7], []⟩ (nm "a.gcode.3mf") [] = .error e :=
  C8_listing_failure_aborts ⟨[7], []⟩ (nm "a.gcode.3mf") [] (Or.inl rfl)

theorem platePlaterId_keep (cs : List PChild)
    (hbad : ∀ k v, PChild.metadata k v ∈ cs → k = some (nm "plater_id") →
      pyInt? (v.getD []) = none) :
    ∀ acc, platePlaterId cs acc = acc := by
  induction cs with
  | nil => intro acc; rfl
  | cons c rest ih =>
    intro acc
    rcases c with ⟨k, v⟩ | i
    · rw [platePlaterId]
      by_cases hk : k = some (nm "plater_id")
      · rw [if_pos hk, hbad k v (List.mem_cons_self _ _) hk]
        exact ih (fun k' v' hm hk' => hbad k' v' (List.mem_cons_of_mem _ hm) hk') acc
      · rw [if_neg hk]
        exact ih (fun k' v' hm hk' => hbad k' v' (List.mem_cons_of_mem _ hm) hk') acc
    · rw [platePlaterId]
      exact ih (fun k' v' hm hk' => hbad k' v' (List.mem_cons_of_mem _ hm) hk') acc

theorem parse_nil_aux (l : List RChild)
    (hbad : ∀ cs ∈ l.filterMap (fun c =>
        match c with
        | .plate cs => some cs
        | .otherR _ => none), platePlaterId cs none = none) :
    l.filterMap (fun c =>
      match c with
      | .plate cs =>
        (platePlaterId cs none).map (fun i =>
          ({ plater_id := i, gcode_file := plateGcode cs [],
             xml_plate_elem := cs } : PlateInfo))
      | .otherR _ => none) = [] := by
  induction l with
  | nil => rfl
  | cons c rest ih =>
    rcases c with cs | i
    · have h0 : platePlaterId cs none = none := by
        refine hbad cs ?_
        rw [List.filterMap_cons]
        exact List.mem_cons_self _ _
      simp only [List.filterMap_cons, h0, Option.map_none']
      refine ih (fun cs' hm => hbad cs' ?_)
      rw [List.filterMap_cons]
      exact List.mem_cons_of_mem _ hm
    · simp only [List.filterMap_cons]
      refine ih (fun cs' hm => hbad cs' ?_)
      rw [List.filterMap_cons]
      exact hm

/-- **C10**: a `<plate>` element with no parseable integer `plater_id`
metadata is silently excluded from the parsed plate list; consequently a
listing whose `<plate>` elements all lack a parseable `plater_id` parses to
the empty plate list and makes the whole conversion fail fatally
(`No <plate> entries found`). -/
theorem C10_unparseable_plater_id (z : Zip) (inputName : Name) (existing : List Name)
    (s : Name) (d : XmlDoc)
    (hread : zread z ( flatten_wrapper_prefix (z.entries.map (fun e => e.name)) ++
        nm "Metadata/model_settings.config") = some (.txt s (some d)))
    (hs : s ≠ [])
    (hne : plateElems d ≠ [])
    (hbad : ∀ cs ∈ plateElems d, ∀ k v, PChild.metadata k v ∈ cs →
      k = some (nm "plater_id") → pyInt? (v.getD []) = none) :
    parse_model_settings_config d = [] ∧
      convert z inputName existing = .error ConvErr.noPlates := by
  have hpp : ∀ cs ∈ plateElems d, platePlaterId cs none = none := fun cs hcs =>
    platePlaterId_keep cs (hbad cs hcs) none
  have hparse : parse_model_settings_config d = [] := by
    unfold parse_model_settings_config
    exact parse_nil_aux d.children (by
      intro cs hcs
      exact hpp cs hcs)
  refine ⟨hparse, ?_⟩
  have hdet : detect_exported_plate_id z (z.entries.map (fun e => e.name))
      ( flatten_wrapper_prefix (z.entries.map (fun e => e.name))) =
        .error ConvErr.noPlates := by
    unfold detect_exported_plate_id
    simp only [hread, if_neg hs, hparse]
  unfold convert
  simp only [hdet]

/-- Witness for C10: a listing with one `<plate>` whose `plater_id` value is
the non-numeric string `"abc"`. -/
theorem C10_unparseable_plater_id_witness :
    parse_model_settings_config dC10 = [] ∧
      convert zC10 (nm "a.gcode.3mf") [] = .error ConvErr.noPlates := by
  refine C10_unparseable_plater_id zC10 (nm "a.gcode.3mf") [] (nm "<config/>") dC10
    (by decide) (by decide) (by decide) ?_
  intro cs hcs k v hmem hk
  have hcs' : cs = [PChild.metadata (some (nm "plater_id")) (some (nm "abc"))] := by
    simpa [plateElems, dC10] using hcs
  rw [hcs'] at hmem
  rw [List.mem_singleton] at hmem
  rw [PChild.metadata.injEq] at hmem
  rw [hmem.2]
  decide

/-! ## Claim C5: the fast-path check -/

/-- **C5 (counterexample)**: the claim as stated fails: this archive's root
relationship document textually references plate 4, violating condition (d),
yet the fast-path check returns true — the code only tests for the substrings
`plate_2` and `plate_3`. -/
theorem C5_counterexample :
    is_already_single_plate zC5 (zC5.entries.map (fun e => e.name)) [] = true ∧
      ¬ CondRelsClean zC5 [] := by
  constructor
  · decide
  · intro h
    have h4 := h (nm "plate_4.png") rfl 4 (by decide)
    exact absurd h4 (by decide)

/-- **C5 (amended)**: the fast-path check returns true only if (a) the
listing contains exactly one plate, (b) that plate's id is 1, (c) no
non-junk, non-directory entry matches the plate-numbered-asset pattern
(after prefix stripping) with a number other than 1, and (d') the root
relationship document does not contain the substrings `plate_2` or `plate_3`
(the code's approximation of "no plate number other than 1"). -/
theorem C5_fast_path_only_if (z : Zip) (names : List Name) (pfx : Name)
    (h : is_already_single_plate z names pfx = true) :
    CondListingSingle z pfx ∧ CondListingIdOne z pfx ∧ CondNoOtherAssets names pfx ∧
      CondRelsNo23 z pfx := by
  unfold is_already_single_plate at h
  rcases hz : zread z (pfx ++ nm "Metadata/model_settings.config") with _ | ed
  · rw [hz] at h
    cases h
  rcases ed with _ | ⟨s, x⟩
  · rw [hz] at h
    cases h
  simp only [hz] at h
  by_cases hse : s = []
  · rw [if_pos hse] at h
    cases h
  rw [if_neg hse] at h
  rcases x with _ | d
  · cases h
  simp only [] at h
  rcases hpl : parse_model_settings_config d with _ | ⟨p, ps⟩
  · simp only [hpl] at h
    exact Bool.noConfusion h
  rcases ps with _ | ⟨p2, ps2⟩
  swap
  · simp only [hpl] at h
    exact Bool.noConfusion h
  simp only [hpl] at h
  by_cases hp1 : p.plater_id ≠ 1
  · rw [if_pos hp1] at h
    exact Bool.noConfusion h
  rw [if_neg hp1] at h
  push_neg at hp1
  rcases hany : names.any (fun n =>
      !is_mac_junk n && !endsSlash n &&
      (match PLATE_FILE_RX (stripPfx pfx n) with
       | some t => decide (digitsToNat t.2.1 ≠ 1)
       | none => false)) with _ | _
  swap
  · rw [if_pos hany] at h
    exact Bool.noConfusion h
  rw [if_neg (by rw [hany]; exact Bool.noConfusion)] at h
  have hlist : readListing z pfx = some [p] := by
    unfold readListing
    simp only [hz]
    rw [if_neg hse, hpl]
  refine ⟨⟨[p], hlist, rfl⟩, ?_, ?_, ?_⟩
  · intro ps hps q hq
    rw [hlist, Option.some.injEq] at hps
    subst hps
    rw [List.mem_singleton] at hq
    subst hq
    exact hp1
  · intro n hn hj hsl t hrx
    by_contra hne1
    have hfn : (!is_mac_junk n && !endsSlash n &&
        (match PLATE_FILE_RX (stripPfx pfx n) with
         | some t => decide (digitsToNat t.2.1 ≠ 1)
         | none => false)) = true := by
      rw [hj, hsl, hrx]
      simp [hne1]
    have : names.any (fun n =>
        !is_mac_junk n && !endsSlash n &&
        (match PLATE_FILE_RX (stripPfx pfx n) with
         | some t => decide (digitsToNat t.2.1 ≠ 1)
         | none => false)) = true :=
      List.any_eq_true.mpr ⟨n, hn, hfn⟩
    rw [hany] at this
    cases this
  · intro r hr
    unfold relsText at hr
    rcases hrels : zread z (pfx ++ nm "_rels/.rels") with _ | ed2
    · rw [hrels] at hr
      cases hr
    rcases ed2 with _ | ⟨r2, x2⟩
    · rw [hrels] at hr
      cases hr
    rw [hrels] at hr
    simp only [Option.some.injEq] at hr
    simp only [hrels] at h
    rw [hr] at h
    by_cases hcond : r ≠ [] ∧ (containsSub r (nm "plate_2") || containsSub r (nm "plate_3")) = true
    · rw [if_pos hcond] at h
      exact Bool.noConfusion h
    · push_neg at hcond
      by_cases hre : r = []
      · subst hre
        exact ⟨rfl, rfl⟩
      · have hor := hcond hre
        constructor
        · cases hc2 : containsSub r (nm "plate_2")
          · rfl
          · exact absurd (by rw [Bool.or_eq_true]; exact Or.inl hc2) hor
        · cases hc3 : containsSub r (nm "plate_3")
          · rfl
          · exact absurd (by rw [Bool.or_eq_true]; exact Or.inr hc3) hor

/-- Witness for C5: the amended necessary conditions hold for `zC5`, whose
fast-path check evaluates to true. -/
theorem C5_fast_path_only_if_witness :
    CondListingSingle zC5 [] ∧ CondListingIdOne zC5 [] ∧
      CondNoOtherAssets (zC5.entries.map (fun e => e.name)) [] ∧ CondRelsNo23 zC5 [] :=
  C5_fast_path_only_if zC5 (zC5.entries.map (fun e => e.name)) [] (by decide)

/-! ## Claim C4: canonical input is copied byte-for-byte -/

/-- **C4**: for every input archive that is already canonical — its plate
listing parses to exactly one plate with id 1, no entry matches the
plate-numbered-asset pattern with a number other than 1, and the root
relationship document contains no textual reference `plate_<k>` to a plate
number `k ≠ 1` — conversion takes the fast path and the output file's bytes
equal the input file's bytes (`.copied z.fileBytes` models
`out_path.write_bytes(input_path.read_bytes())`). -/
theorem C4_canonical_copied (z : Zip) (inputName : Name) (existing : List Name)
    (s : Name) (d : XmlDoc) (p : PlateInfo)
    (hread : zread z ( flatten_wrapper_prefix (z.entries.map (fun e => e.name)) ++
        nm "Metadata/model_settings.config") = some (.txt s (some d)))
    (hs : s ≠ [])
    (hparse : parse_model_settings_config d = [p])
    (hid : p.plater_id = 1)
    (hassets : CondNoOtherAssets (z.entries.map (fun e => e.name))
      ( flatten_wrapper_prefix (z.entries.map (fun e => e.name))))
    (hrels : CondRelsClean z ( flatten_wrapper_prefix (z.entries.map (fun e => e.name)))) :
    ∃ outPath, convert z inputName existing = .ok (.copied z.fileBytes outPath) := by
  set names := z.entries.map (fun e => e.name) with hnames
  set pfx := flatten_wrapper_prefix names with hpfx
  have hdet : detect_exported_plate_id z names pfx =
      .ok (detect_from_plates [p] names pfx) := by
    unfold detect_exported_plate_id
    simp only [hread]
    rw [if_neg hs]
    simp only [hparse]
  have hany : names.any (fun n =>
      !is_mac_junk n && !endsSlash n &&
      (match PLATE_FILE_RX (stripPfx pfx n) with
       | some t => decide (digitsToNat t.2.1 ≠ 1)
       | none => false)) = false := by
    rcases hany0 : names.any (fun n =>
        !is_mac_junk n && !endsSlash n &&
        (match PLATE_FILE_RX (stripPfx pfx n) with
         | some t => decide (digitsToNat t.2.1 ≠ 1)
         | none => false)) with _ | _
    · rfl
    · exfalso
      obtain ⟨n, hn, hfn⟩ := List.any_eq_true.mp hany0
      rw [Bool.and_eq_true, Bool.and_eq_true] at hfn
      obtain ⟨⟨hj, hsl⟩, hm⟩ := hfn
      rcases hrx : PLATE_FILE_RX (stripPfx pfx n) with _ | t
      · rw [hrx] at hm
        exact Bool.noConfusion hm
      · rw [hrx] at hm
        rw [decide_eq_true_eq] at hm
        exact hm (hassets n hn (by simpa using hj) (by simpa using hsl) t hrx)
  have hfast : is_already_single_plate z names pfx = true := by
    unfold is_already_single_plate
    simp only [hread]
    rw [if_neg hs]
    simp only [hparse]
    rw [if_neg (fun hne => hne hid)]
    rw [if_neg (by rw [hany]; exact Bool.noConfusion)]
    rcases hrels0 : zread z (pfx ++ nm "_rels/.rels") with _ | ed
    · simp only [hrels0]
    rcases ed with _ | ⟨r, x⟩
    · simp only [hrels0]
    · simp only [hrels0]
      have hrt : relsText z pfx = some r := by
        unfold relsText
        simp only [hrels0]
      have h2 := hrels r hrt 2 (by omega)
      have h3 := hrels r hrt 3 (by omega)
      rw [show nm "plate_" ++ natChars 2 = nm "plate_2" from by decide] at h2
      rw [show nm "plate_" ++ natChars 3 = nm "plate_3" from by decide] at h3
      rw [if_neg ?hc]
      case hc =>
        rintro ⟨-, hor⟩
        rw [Bool.or_eq_true] at hor
        rcases hor with hor | hor
        · rw [h2] at hor
          exact Bool.noConfusion hor
        · rw [h3] at hor
          exact Bool.noConfusion hor
  obtain ⟨op, hop, -⟩ := compute_output_path_isSome existing inputName
    (detect_from_plates [p] names pfx).1
  refine ⟨op, ?_⟩
  unfold convert
  simp only [hdet, hop]
  rw [if_pos hfast]

/-- Witness for C4 at the concrete canonical archive `zC4`. -/
theorem C4_canonical_copied_witness :
    ∃ outPath, convert zC4 (nm "bar.gcode.3mf") [] = .ok (.copied zC4.fileBytes outPath) := by
  refine C4_canonical_copied zC4 (nm "bar.gcode.3mf") [] (nm "ms") dSingle1
    { plater_id := 1, gcode_file := [],
      xml_plate_elem := [.metadata (some (nm "plater_id")) (some (nm "1"))] }
    (by decide) (by decide) (by decide) (by decide) ?_ ?_
  · intro n hn hj hsl t hrx
    have hn' : n = nm "Metadata/model_settings.config" := by
      have hmap : zC4.entries.map (fun e => e.name) = [nm "Metadata/model_settings.config"] :=
        rfl
      rw [hmap, List.mem_singleton] at hn
      exact hn
    subst hn'
    rw [show PLATE_FILE_RX (stripPfx ( flatten_wrapper_prefix
      (zC4.entries.map (fun e => e.name))) (nm "Metadata/model_settings.config")) = none
      from by decide] at hrx
    exact Option.noConfusion hrx
  · intro r hr
    rw [show relsText zC4 ( flatten_wrapper_prefix (zC4.entries.map (fun e => e.name))) = none
      from by decide] at hr
    exact Option.noConfusion hr

/-! ## Shared lemmas about `zread`, names and the wrapper prefix -/

theorem zread_mem {z : Zip} {n : Name} {ed : EData} (h : zread z n = some ed) :
    n ∈ z.entries.map (fun e => e.name) := by
  unfold zread at h
  rw [Option.map_eq_some'] at h
  obtain ⟨e, hfind, -⟩ := h
  have hmem := List.mem_of_find?_eq_some hfind
  have hpred := List.find?_some hfind
  rw [beq_iff_eq] at hpred
  rw [List.mem_reverse] at hmem
  rw [List.mem_map]
  exact ⟨e, hmem, hpred⟩

theorem endsWithN_iff (n p : Name) : endsWithN n p = true ↔ ∃ u, n = u ++ p := by
  unfold endsWithN
  rw [startsWithN_iff]
  constructor
  · rintro ⟨t, ht⟩
    refine ⟨t.reverse, ?_⟩
    have := congrArg List.reverse ht
    simpa using this
  · rintro ⟨u, rfl⟩
    exact ⟨u.reverse, by simp⟩

theorem endsSlash_append {xs ys : Name} (h : ys ≠ []) :
    endsSlash (xs ++ ys) = endsSlash ys := by
  unfold endsSlash
  rw [List.getLast?_append_of_ne_nil _ h]

theorem takeWhile_append_of_mem_not {p : Char → Bool} {t xs : List Char} {c0 : Char}
    (hc0 : c0 ∈ t) (hp : p c0 = false) :
    (t ++ xs).takeWhile p = t.takeWhile p := by
  induction t with
  | nil => cases hc0
  | cons c t' ih =>
    rw [List.cons_append, List.takeWhile_cons, List.takeWhile_cons]
    by_cases hpc : p c = true
    · simp only [hpc, if_true]
      have hc0' : c0 ∈ t' := by
        rcases List.mem_cons.mp hc0 with rfl | hm
        · rw [hp] at hpc
          exact Bool.noConfusion hpc
        · exact hm
      rw [ih hc0']
    · rw [Bool.not_eq_true] at hpc
      simp only [hpc, Bool.false_eq_true, if_false]

theorem baseName_append {xs ys : Name} (h : '/' ∈ ys) :
    baseName (xs ++ ys) = baseName ys := by
  unfold baseName
  rw [List.reverse_append]
  congr 1
  exact takeWhile_append_of_mem_not (List.mem_reverse.mpr h) (by simp)

theorem pickShortest_foldl_mem :
    ∀ (l : List Name) (acc : Option Name) (r : Name),
      l.foldl (fun acc c =>
        match acc with
        | none => some c
        | some a => if c.length < a.length then some c else acc) acc = some r →
      r ∈ l ∨ acc = some r := by
  intro l
  induction l with
  | nil => intro acc r h; rw [List.foldl_nil] at h; exact Or.inr h
  | cons c t ih =>
    intro acc r h
    rw [List.foldl_cons] at h
    rcases ih _ r h with hm | hs
    · exact Or.inl (List.mem_cons_of_mem c hm)
    · rcases acc with _ | a
      · simp only [Option.some.injEq] at hs
        exact Or.inl (hs ▸ List.mem_cons_self c t)
      · by_cases hlt : c.length < a.length
        · simp only [hlt, if_true, Option.some.injEq] at hs
          exact Or.inl (hs ▸ List.mem_cons_self c t)
        · simp only [hlt, if_false] at hs
          exact Or.inr hs

theorem pickShortest_mem {l : List Name} {c : Name} (h : pickShortest l = some c) : c ∈ l := by
  unfold pickShortest at h
  rcases pickShortest_foldl_mem l none c h with hm | hs
  · exact hm
  · exact absurd hs (by simp)

/-- Structure of a detected non-empty wrapper prefix: it ends in a slash,
every non-junk non-directory entry name starts with it, and the manifest name
it was derived from is not junk. -/
theorem flatten_props {names : List Name} {pfx : Name}
    (hpfx : flatten_wrapper_prefix names = pfx) (hne : pfx ≠ []) :
    (∃ y, pfx = y ++ ['/']) ∧
    (∀ n ∈ names, is_mac_junk n = false → endsSlash n = false →
      startsWithN n pfx = true) ∧
    is_mac_junk (pfx ++ nm "[Content_Types].xml") = false := by
  unfold flatten_wrapper_prefix at hpfx
  simp only [] at hpfx
  split at hpfx
  · exact absurd hpfx.symm hne
  · split at hpfx
    · exact absurd hpfx.symm hne
    · rename_i candidate hcand
      split at hpfx
      · rename_i hall
        have hmemc := pickShortest_mem hcand
        rw [List.mem_filter] at hmemc
        obtain ⟨hc_nonjunk, hc_ends⟩ := hmemc
        obtain ⟨y, hy⟩ := (endsWithN_iff _ _).mp hc_ends
        have hsplitc : candidate = (y ++ ['/']) ++ nm "[Content_Types].xml" := by
          rw [hy]
          rw [show nm "/[Content_Types].xml" = '/' :: nm "[Content_Types].xml" from rfl]
          simp
        have htake : candidate.take (candidate.length - (nm "[Content_Types].xml").length) =
            y ++ ['/'] := by
          rw [hsplitc, List.length_append, Nat.add_sub_cancel,
            List.take_append_eq_append_take]
          rw [List.take_of_length_le (by omega)]
          rw [show (y ++ ['/']).length - (y ++ ['/']).length = 0 by omega]
          simp
        rw [htake] at hpfx hall
        subst hpfx
        refine ⟨⟨y, rfl⟩, ?_, ?_⟩
        · intro n hn hj hsl
          rw [List.all_eq_true] at hall
          refine hall n ?_
          unfold nonjunkNames
          rw [List.mem_filter]
          exact ⟨hn, by rw [hj, hsl]; rfl⟩
        · unfold nonjunkNames at hc_nonjunk
          rw [List.mem_filter] at hc_nonjunk
          have := hc_nonjunk.2
          rw [Bool.and_eq_true] at this
          have hjc : is_mac_junk candidate = false := by
            have h1 := this.1
            rwa [Bool.not_eq_true'] at h1
          rw [hsplitc] at hjc
          exact hjc
      · exact absurd hpfx.symm hne

/-- The wrapper-prefixed listing name is never a junk name. -/
theorem pfx_listing_not_junk {names : List Name} {pfx : Name}
    (hpfx : flatten_wrapper_prefix names = pfx) :
    is_mac_junk (pfx ++ nm "Metadata/model_settings.config") = false := by
  by_cases hne : pfx = []
  · subst hne
    decide
  · obtain ⟨⟨y, hy⟩, -, hctj⟩ := flatten_props hpfx hne
    have hbase : baseName (pfx ++ nm "Metadata/model_settings.config") =
        nm "model_settings.config" := by
      rw [baseName_append (by decide)]
      decide
    have hsw : startsWithN (pfx ++ nm "Metadata/model_settings.config")
        (nm "__MACOSX/") = false := by
      rcases hswc : startsWithN (pfx ++ nm "Metadata/model_settings.config")
          (nm "__MACOSX/") with _ | _
      · rfl
      · exfalso
        obtain ⟨t, ht⟩ := (startsWithN_iff _ _).mp hswc
        by_cases hk : 9 ≤ pfx.length
        · have htk : (nm "__MACOSX/") = pfx.take 9 := by
            have h1 : (pfx ++ nm "Metadata/model_settings.config").take 9 =
                nm "__MACOSX/" ++ t.take (9 - (nm "__MACOSX/").length) := by
              rw [ht, List.take_append_eq_append_take, List.take_of_length_le (by decide)]
            rw [show (9 : Nat) - (nm "__MACOSX/").length = 0 from by decide,
              List.take_zero, List.append_nil] at h1
            rw [List.take_append_eq_append_take,
              show (9 : Nat) - pfx.length = 0 from by omega, List.take_zero,
              List.append_nil] at h1
            exact h1.symm
          have hswj : startsWithN (pfx ++ nm "[Content_Types].xml")
              (nm "__MACOSX/") = true := by
            rw [startsWithN_iff]
            refine ⟨pfx.drop 9 ++ nm "[Content_Types].xml", ?_⟩
            rw [← List.append_assoc, htk, List.take_append_drop]
          unfold is_mac_junk at hctj
          rw [hswj] at hctj
          exact Bool.noConfusion hctj
        · push_neg at hk
          have hpfxtake : pfx = (nm "__MACOSX/").take pfx.length := by
            have h1 : (pfx ++ nm "Metadata/model_settings.config").take pfx.length = pfx := by
              rw [List.take_append_eq_append_take, List.take_of_length_le (le_refl _),
                Nat.sub_self, List.take_zero, List.append_nil]
            rw [ht, List.take_append_eq_append_take,
              show pfx.length - (nm "__MACOSX/").length = 0 from by
                rw [show (nm "__MACOSX/").length = 9 from by decide]; omega,
              List.take_zero, List.append_nil] at h1
            exact h1.symm
          have hslash : '/' ∈ pfx := by
            rw [hy]
            exact List.mem_append_right y (List.mem_singleton_self '/')
          rw [hpfxtake] at hslash
          have hsub : (nm "__MACOSX/").take pfx.length ⊆ nm "__MACOSX" := by
            have h8 : (nm "__MACOSX/").take pfx.length =
                ((nm "__MACOSX/").take 8).take pfx.length := by
              rw [List.take_take, Nat.min_eq_left (by omega)]
            rw [h8, show (nm "__MACOSX/").take 8 = nm "__MACOSX" from by decide]
            exact List.take_subset _ _
          have : '/' ∈ nm "__MACOSX" := hsub hslash
          exact absurd this (by decide)
    unfold is_mac_junk
    rw [hsw, hbase]
    decide

/-! ## Lemmas about plate parsing and rewriting -/

theorem platerValues_nil_platePlaterId {cs : List PChild} (h : platerValues cs = []) :
    ∀ acc, platePlaterId cs acc = acc := by
  induction cs with
  | nil => intro acc; rfl
  | cons c rest ih =>
    intro acc
    rcases c with ⟨k, v⟩ | i
    · by_cases hk : k = some (nm "plater_id")
      · exfalso
        unfold platerValues at h
        rw [List.filterMap_cons] at h
        simp only [hk, if_pos] at h
        exact List.noConfusion h
      · have hval : platerValues rest = [] := by
          unfold platerValues at h ⊢
          rw [List.filterMap_cons] at h
          simp only [hk, if_neg, if_false] at h
          exact h
        rw [platePlaterId, if_neg hk]
        exact ih hval acc
    · have hval : platerValues rest = [] := by
        unfold platerValues at h ⊢
        rw [List.filterMap_cons] at h
        exact h
      rw [platePlaterId]
      exact ih hval acc

theorem platerValues_single_platePlaterId {cs : List PChild} {v : Name} {i : Int}
    (h : platerValues cs = [v]) (hv : pyInt? v = some i) :
    ∀ acc, platePlaterId cs acc = some i := by
  induction cs with
  | nil => exact absurd h (by simp [platerValues])
  | cons c rest ih =>
    intro acc
    rcases c with ⟨k, v'⟩ | j
    · by_cases hk : k = some (nm "plater_id")
      · have hcons : v'.getD [] = v ∧ platerValues rest = [] := by
          unfold platerValues at h
          rw [List.filterMap_cons] at h
          simp only [hk, if_pos] at h
          rw [List.cons.injEq] at h
          exact ⟨h.1, h.2⟩
        rw [platePlaterId, if_pos hk, hcons.1, hv]
        exact platerValues_nil_platePlaterId hcons.2 (some i)
      · have hval : platerValues rest = [v] := by
          unfold platerValues at h ⊢
          rw [List.filterMap_cons] at h
          simp only [hk, if_neg, if_false] at h
          exact h
        rw [platePlaterId, if_neg hk]
        exact ih hval acc
    · have hval : platerValues rest = [v] := by
        unfold platerValues at h ⊢
        rw [List.filterMap_cons] at h
        exact h
      rw [platePlaterId]
      exact ih hval acc

theorem platerValues_nil_rwPlaterId {cs : List PChild} (h : platerValues cs = []) :
    ∀ acc, rwPlaterId cs acc = acc := by
  induction cs with
  | nil => intro acc; rfl
  | cons c rest ih =>
    intro acc
    rcases c with ⟨k, v⟩ | i
    · by_cases hk : k = some (nm "plater_id")
      · exfalso
        unfold platerValues at h
        rw [List.filterMap_cons] at h
        simp only [hk, if_pos] at h
        exact List.noConfusion h
      · have hval : platerValues rest = [] := by
          unfold platerValues at h ⊢
          rw [List.filterMap_cons] at h
          simp only [hk, if_neg, if_false] at h
          exact h
        rw [rwPlaterId, if_neg hk]
        exact ih hval acc
    · have hval : platerValues rest = [] := by
        unfold platerValues at h ⊢
        rw [List.filterMap_cons] at h
        exact h
      rw [rwPlaterId]
      exact ih hval acc

theorem platerValues_single_rwPlaterId {cs : List PChild} {v : Name} {i : Int}
    (h : platerValues cs = [v]) (hv : pyInt? v = some i) :
    ∀ acc, rwPlaterId cs acc = some i := by
  induction cs with
  | nil => exact absurd h (by simp [platerValues])
  | cons c rest ih =>
    intro acc
    rcases c with ⟨k, v'⟩ | j
    · by_cases hk : k = some (nm "plater_id")
      · have hcons : v'.getD [] = v ∧ platerValues rest = [] := by
          unfold platerValues at h
          rw [List.filterMap_cons] at h
          simp only [hk, if_pos] at h
          rw [List.cons.injEq] at h
          exact ⟨h.1, h.2⟩
        rw [rwPlaterId, if_pos hk, hcons.1, hv]
        exact platerValues_nil_rwPlaterId hcons.2 (some i)
      · have hval : platerValues rest = [v] := by
          unfold platerValues at h ⊢
          rw [List.filterMap_cons] at h
          simp only [hk, if_neg, if_false] at h
          exact h
        rw [rwPlaterId, if_neg hk]
        exact ih hval acc
    · have hval : platerValues rest = [v] := by
        unfold platerValues at h ⊢
        rw [List.filterMap_cons] at h
        exact h
      rw [rwPlaterId]
      exact ih hval acc

theorem parse_mem {d : XmlDoc} {p : PlateInfo} (h : p ∈ parse_model_settings_config d) :
    p.xml_plate_elem ∈ plateElems d ∧
      platePlaterId p.xml_plate_elem none = some p.plater_id := by
  unfold parse_model_settings_config at h
  rw [List.mem_filterMap] at h
  obtain ⟨c, hc, hfc⟩ := h
  rcases c with cs | i
  · simp only [Option.map_eq_some'] at hfc
    obtain ⟨j, hj, hpj⟩ := hfc
    subst hpj
    constructor
    · unfold plateElems
      rw [List.mem_filterMap]
      exact ⟨.plate cs, hc, rfl⟩
    · exact hj
  · exact absurd hfc (by simp)

theorem parse_elems_aux (l : List RChild)
    (h : ∀ cs ∈ l.filterMap (fun c =>
        match c with
        | RChild.plate cs => some cs
        | RChild.otherR _ => none), (platePlaterId cs none).isSome = true) :
    (l.filterMap (fun c =>
      match c with
      | RChild.plate cs =>
        (platePlaterId cs none).map (fun i =>
          ({ plater_id := i, gcode_file := plateGcode cs [],
             xml_plate_elem := cs } : PlateInfo))
      | RChild.otherR _ => none)).map (fun p => p.xml_plate_elem) =
    l.filterMap (fun c =>
      match c with
      | RChild.plate cs => some cs
      | RChild.otherR _ => none) := by
  induction l with
  | nil => rfl
  | cons c rest ih =>
    rcases c with cs | i
    · have hcs : (platePlaterId cs none).isSome = true := by
        refine h cs ?_
        rw [List.filterMap_cons]
        exact List.mem_cons_self _ _
      rw [Option.isSome_iff_exists] at hcs
      obtain ⟨j, hj⟩ := hcs
      simp only [List.filterMap_cons, hj, Option.map_some', List.map_cons]
      rw [ih (fun cs' hm => h cs' (by rw [List.filterMap_cons]; exact List.mem_cons_of_mem _ hm))]
    · simp only [List.filterMap_cons]
      exact ih (fun cs' hm => h cs' (by rw [List.filterMap_cons]; exact hm))

/-- Under per-plate unique parseable ids, the parsed plates correspond
one-to-one to the `<plate>` elements. -/
theorem parse_elems_eq {d : XmlDoc} (h : ∀ cs ∈ plateElems d, UniquePlater cs) :
    (parse_model_settings_config d).map (fun p => p.xml_plate_elem) = plateElems d := by
  unfold parse_model_settings_config plateElems
  refine parse_elems_aux d.children ?_
  intro cs hcs
  obtain ⟨v, i, hval, hpy⟩ := h cs hcs
  rw [platerValues_single_platePlaterId hval hpy none]
  rfl

/-- The id returned by the detection core is a listed plate's id, or the
default 1. -/
theorem detect_from_plates_pid (plates : List PlateInfo) (names : List Name) (pfx : Name) :
    (∃ p ∈ plates, p.plater_id = (detect_from_plates plates names pfx).1) ∨
      (detect_from_plates plates names pfx).1 = 1 := by
  unfold detect_from_plates
  simp only []
  rcases hpm : pickMinFirst ((plates.filter (fun p =>
      !(pyStrip p.gcode_file).isEmpty && decide ((pfx ++ dropSlashes p.gcode_file) ∈ names))).map
      (fun p => (p.plater_id, pfx ++ dropSlashes p.gcode_file))) with _ | c
  · simp only [hpm]
    rcases hflt : plates.filter (fun p => !(pyStrip p.gcode_file).isEmpty) with _ | ⟨p, rest⟩
    · simp only [hflt]
      exact Or.inr trivial
    · rcases rest with _ | ⟨q, rest2⟩
      · simp only [hflt]
        refine Or.inl ⟨p, ?_, rfl⟩
        have hpm2 : p ∈ plates.filter (fun p => !(pyStrip p.gcode_file).isEmpty) := by
          rw [hflt]
          exact List.mem_cons_self _ _
        exact List.mem_of_mem_filter hpm2
      · simp only [hflt]
        exact Or.inr trivial
  · simp only [hpm]
    obtain ⟨hmem, -⟩ := pickMinFirst_some hpm
    rw [List.mem_map] at hmem
    obtain ⟨q, hq, hqc⟩ := hmem
    refine Or.inl ⟨q, List.mem_of_mem_filter hq, ?_⟩
    rw [← hqc]

theorem plateElems_rebuilt (l : List RChild) (X : List PChild) :
    plateElems ⟨(l.filter (fun c =>
      match c with
      | RChild.plate _ => false
      | RChild.otherR _ => true)) ++ [.plate X]⟩ = [X] := by
  unfold plateElems
  rw [List.filterMap_append]
  have h1 : (l.filter (fun c =>
      match c with
      | RChild.plate _ => false
      | RChild.otherR _ => true)).filterMap (fun c =>
        match c with
        | RChild.plate cs => some cs
        | RChild.otherR _ => none) = [] := by
    induction l with
    | nil => rfl
    | cons c rest ih =>
      rcases c with cs | i
      · rw [List.filter_cons_of_neg]
        · exact ih
        · exact fun h => Bool.noConfusion h
      · rw [List.filter_cons_of_pos, List.filterMap_cons]
        · exact ih
        · exact rfl
  rw [h1]
  rfl

theorem platerValues_map_rewrite (keep np : Int) (cs : List PChild) :
    platerValues (cs.map (rewriteKeptMeta keep np)) =
      (platerValues cs).map (fun _ => intChars np) := by
  induction cs with
  | nil => rfl
  | cons c rest ih =>
    rcases c with ⟨k, v⟩ | i
    · by_cases hk : k = some (nm "plater_id")
      · rw [List.map_cons, show rewriteKeptMeta keep np (.metadata k v) =
            .metadata k (some (intChars np)) from by rw [rewriteKeptMeta, if_pos hk]]
        unfold platerValues
        rw [List.filterMap_cons, List.filterMap_cons]
        simp only [hk, if_pos]
        unfold platerValues at ih
        rw [List.map_cons]
        rw [ih]
        rfl
      · have hkept : ∃ v2, rewriteKeptMeta keep np (.metadata k v) = .metadata k v2 := by
          simp only [rewriteKeptMeta]
          rw [if_neg hk]
          by_cases hv : rewriteValueRefs keep np (v.getD []) ≠ v.getD []
          · rw [if_pos hv]
            exact ⟨_, rfl⟩
          · rw [if_neg hv]
            exact ⟨_, rfl⟩
        obtain ⟨v2, hv2⟩ := hkept
        rw [List.map_cons, hv2]
        unfold platerValues
        rw [List.filterMap_cons, List.filterMap_cons]
        simp only [hk, if_neg, if_false]
        exact ih
    · rw [List.map_cons, show rewriteKeptMeta keep np (.otherP i) = .otherP i from rfl]
      unfold platerValues
      rw [List.filterMap_cons, List.filterMap_cons]
      exact ih

/-- Processing the listing entry itself: kept under its stripped name and
rewritten by `rewrite_model_settings_config`. -/
theorem processEntry_listing {z : Zip} {pfx s : Name} {d : XmlDoc} (pid : Int)
    (hread : zread z (pfx ++ nm "Metadata/model_settings.config") = some (.txt s (some d))) :
    processEntry z pfx pid (pfx ++ nm "Metadata/model_settings.config") =
      some (nm "Metadata/model_settings.config",
        rewrite_model_settings_config s (some d) pid 1) := by
  have hstrip : stripPfx pfx (pfx ++ nm "Metadata/model_settings.config") =
      nm "Metadata/model_settings.config" := by
    unfold stripPfx
    by_cases hpe : pfx = []
    · rw [if_pos hpe, hpe, List.nil_append]
    · rw [if_neg hpe, if_pos ((startsWithN_iff _ _).mpr ⟨_, rfl⟩)]
      exact List.drop_left _ _
  unfold processEntry
  rw [hstrip]
  simp only [show rename_or_drop_plate_file (nm "Metadata/model_settings.config") pid 1 =
      (true, nm "Metadata/model_settings.config") from by
    unfold rename_or_drop_plate_file
    rw [show PLATE_FILE_RX (nm "Metadata/model_settings.config") = none from by decide]]
  rw [hread]
  simp only [Option.getD_some]
  rw [show dispatchRewrite pid (nm "Metadata/model_settings.config") (.txt s (some d)) =
      rewrite_model_settings_config s (some d) pid 1 from by
    unfold dispatchRewrite
    rw [if_neg (by decide), if_neg (by decide), if_pos rfl]]

/-- A kept entry is either kept under its unchanged name, or renamed to a
name containing the character `1`. -/
theorem rename_keep_names {nn : Name} {keep : Int} {newName : Name}
    (h : rename_or_drop_plate_file nn keep 1 = (true, newName)) :
    newName = nn ∨ '1' ∈ newName := by
  unfold rename_or_drop_plate_file at h
  rcases hrx : PLATE_FILE_RX nn with _ | ⟨stem, ds, ext⟩
  · rw [hrx] at h
    rw [Prod.mk.injEq] at h
    exact Or.inl h.2.symm
  · simp only [hrx] at h
    split at h
    · rw [Prod.mk.injEq] at h
      exact absurd h.1.symm (by simp)
    · rw [Prod.mk.injEq] at h
      refine Or.inr ?_
      rw [← h.2]
      refine List.mem_append_left _ ?_
      refine List.mem_append_right _ ?_
      rw [show intChars 1 = ['1'] from by decide]
      exact List.mem_cons_of_mem '_' (List.mem_singleton_self '1')

/-! ## Claim C1: the output has exactly one plate, with id 1 -/

/-- **C1**: for every input archive whose plate listing lists plates with
ids `{1..N}` (each `<plate>` element carrying exactly one parseable integer
`plater_id`), every successful conversion produces an output whose
plate-listing metadata document contains exactly one `<plate>` element whose
`plater_id` parses to 1 (on the fast path the output bytes are the input
bytes, whose listing already satisfies this; on the full path every output
listing entry is the rewritten document). -/
theorem C1_output_single_plate (z : Zip) (inputName : Name) (existing : List Name)
    (s : Name) (d : XmlDoc) (N : Int)
    (hread : zread z ( flatten_wrapper_prefix (z.entries.map (fun e => e.name)) ++
        nm "Metadata/model_settings.config") = some (.txt s (some d)))
    (hs : s ≠ [])
    (hN : 1 ≤ N)
    (hids : ∀ i : Int, (∃ p ∈ parse_model_settings_config d, p.plater_id = i) ↔
      (1 ≤ i ∧ i ≤ N))
    (huniq : ∀ cs ∈ plateElems d, UniquePlater cs) :
    ∀ out, convert z inputName existing = .ok out → outSingleListing out d := by
  intro out hconv
  set names := z.entries.map (fun e => e.name) with hnames
  set pfx := flatten_wrapper_prefix names with hpfxdef
  have h1mem : ∃ p ∈ parse_model_settings_config d, p.plater_id = 1 :=
    (hids 1).mpr ⟨le_refl 1, hN⟩
  rcases hpl : parse_model_settings_config d with _ | ⟨p0, ps0⟩
  · exfalso
    obtain ⟨p, hp, -⟩ := h1mem
    rw [hpl] at hp
    exact absurd hp (List.not_mem_nil p)
  rcases hdfp : detect_from_plates (p0 :: ps0) names pfx with ⟨pid, gp, w⟩
  have hdet : detect_exported_plate_id z names pfx = .ok (pid, gp, w) := by
    unfold detect_exported_plate_id
    simp only [hread]
    rw [if_neg hs]
    simp only [hpl, hdfp]
  have hpid : ∃ p ∈ parse_model_settings_config d, p.plater_id = pid := by
    rcases detect_from_plates_pid (p0 :: ps0) names pfx with hmem | h1
    · rw [hdfp] at hmem
      rw [hpl]
      exact hmem
    · rw [hdfp] at h1
      rw [show pid = (1 : Int) from h1]
      exact h1mem
  obtain ⟨pk, hpk_mem, hpk_id⟩ := hpid
  obtain ⟨hpk_elem, hpk_val⟩ := parse_mem hpk_mem
  obtain ⟨v, i, hpv, hpy⟩ := huniq pk.xml_plate_elem hpk_elem
  have hieq : i = pk.plater_id := by
    have h0 : some i = some pk.plater_id := by
      rw [← hpk_val, platerValues_single_platePlaterId hpv hpy none]
    rw [Option.some.injEq] at h0
    exact h0
  have hrw : rwPlaterId pk.xml_plate_elem none = some pid := by
    rw [platerValues_single_rwPlaterId hpv hpy none, hieq, hpk_id]
  have hfind_some : ((plateElems d).find? (fun cs =>
      rwPlaterId cs none == some pid)).isSome = true := by
    rw [List.find?_isSome]
    exact ⟨pk.xml_plate_elem, hpk_elem, by rw [beq_iff_eq]; exact hrw⟩
  rw [Option.isSome_iff_exists] at hfind_some
  obtain ⟨keepCs, hkeep⟩ := hfind_some
  have hkeep_mem := List.mem_of_find?_eq_some hkeep
  have hd2ok : ListingSingleOne ⟨(d.children.filter (fun c =>
      match c with
      | RChild.plate _ => false
      | RChild.otherR _ => true)) ++ [.plate (keepCs.map (rewriteKeptMeta pid 1))]⟩ := by
    refine ⟨keepCs.map (rewriteKeptMeta pid 1), plateElems_rebuilt d.children _, ?_⟩
    obtain ⟨vk, ik, hvk, hik⟩ := huniq keepCs hkeep_mem
    have hvals : platerValues (keepCs.map (rewriteKeptMeta pid 1)) = [intChars 1] := by
      rw [platerValues_map_rewrite, hvk]
      rfl
    exact platerValues_single_platePlaterId hvals
      (show pyInt? (intChars 1) = some 1 from by decide) none
  have hrwms : rewrite_model_settings_config s (some d) pid 1 =
      .xmlOut ⟨(d.children.filter (fun c =>
        match c with
        | RChild.plate _ => false
        | RChild.otherR _ => true)) ++ [.plate (keepCs.map (rewriteKeptMeta pid 1))]⟩ := by
    unfold rewrite_model_settings_config
    rcases hpe : plateElems d with _ | ⟨e0, es0⟩
    · exfalso
      rw [hpe] at hpk_elem
      exact absurd hpk_elem (List.not_mem_nil _)
    · rw [hpe] at hkeep
      simp only [hpe, hkeep]
  unfold convert at hconv
  simp only [hdet] at hconv
  rcases hop : compute_output_path existing inputName pid with _ | op
  · simp only [hop] at hconv
    exact absurd hconv (by simp)
  · simp only [hop] at hconv
    rw [← hnames, ← hpfxdef] at hconv
    by_cases hfast : is_already_single_plate z names pfx = true
    · rw [if_pos hfast] at hconv
      rw [Except.ok.injEq] at hconv
      subst hconv
      show ListingSingleOne d
      unfold is_already_single_plate at hfast
      simp only [hread] at hfast
      rw [if_neg hs] at hfast
      rw [hpl] at hfast
      rcases ps0 with _ | ⟨q0, qs0⟩
      swap
      · simp at hfast
      · obtain ⟨pp, hpp_mem, hpp_id⟩ := h1mem
        rw [hpl, List.mem_singleton] at hpp_mem
        subst hpp_mem
        have helems := parse_elems_eq huniq
        rw [hpl] at helems
        refine ⟨pp.xml_plate_elem, helems.symm, ?_⟩
        have hpm := (parse_mem (show pp ∈ parse_model_settings_config d from by
          rw [hpl]; exact List.mem_cons_self _ _)).2
        rw [hpm, hpp_id]
    · rw [if_neg hfast] at hconv
      rw [Except.ok.injEq] at hconv
      subst hconv
      show (∃ e ∈ (nonjunkNames names).filterMap (processEntry z pfx pid),
          e.1 = nm "Metadata/model_settings.config") ∧ _
      have hproc := @processEntry_listing z pfx _ _ pid hread
      rw [hrwms] at hproc
      have horig_mem : pfx ++ nm "Metadata/model_settings.config" ∈ nonjunkNames names := by
        unfold nonjunkNames
        rw [List.mem_filter]
        refine ⟨zread_mem hread, ?_⟩
        rw [pfx_listing_not_junk hpfxdef.symm, endsSlash_append (by decide),
          show endsSlash (nm "Metadata/model_settings.config") = false from by decide]
        rfl
      constructor
      · refine ⟨(nm "Metadata/model_settings.config",
          OutData.xmlOut ⟨(d.children.filter (fun c =>
            match c with
            | RChild.plate _ => false
            | RChild.otherR _ => true)) ++
              [.plate (keepCs.map (rewriteKeptMeta pid 1))]⟩), ?_, rfl⟩
        rw [List.mem_filterMap]
        exact ⟨pfx ++ nm "Metadata/model_settings.config", horig_mem, hproc⟩
      · intro e he hename
        rw [List.mem_filterMap] at he
        obtain ⟨orig, horig, hpe0⟩ := he
        have hpe2 := hpe0
        unfold processEntry at hpe2
        rcases hrn : rename_or_drop_plate_file (stripPfx pfx orig) pid 1 with ⟨b, newName⟩
        rw [hrn] at hpe2
        rcases b with _ | _
        · exact absurd hpe2 (by simp)
        · rw [Option.some.injEq] at hpe2
          have he1 : newName = nm "Metadata/model_settings.config" := by
            rw [show newName = e.1 from congrArg Prod.fst hpe2]
            exact hename
          have hnn : stripPfx pfx orig = nm "Metadata/model_settings.config" := by
            rcases rename_keep_names hrn with hsame | hone
            · rw [← hsame, he1]
            · rw [he1] at hone
              exact absurd hone (by decide)
          have horigeq : orig = pfx ++ nm "Metadata/model_settings.config" := by
            unfold stripPfx at hnn
            by_cases hpe3 : pfx = []
            · rw [if_pos hpe3] at hnn
              rw [hpe3, List.nil_append]
              exact hnn
            · rw [if_neg hpe3] at hnn
              have hsw : startsWithN orig pfx = true := by
                unfold nonjunkNames at horig
                rw [List.mem_filter] at horig
                obtain ⟨hm, hflt2⟩ := horig
                rw [Bool.and_eq_true] at hflt2
                have hj : is_mac_junk orig = false := by
                  have := hflt2.1
                  rwa [Bool.not_eq_true'] at this
                have hsl : endsSlash orig = false := by
                  have := hflt2.2
                  rwa [Bool.not_eq_true'] at this
                exact ((flatten_props hpfxdef.symm hpe3).2.1) orig hm hj hsl
              rw [if_pos hsw] at hnn
              obtain ⟨t, ht⟩ := (startsWithN_iff orig pfx).mp hsw
              rw [ht, List.drop_left] at hnn
              rw [ht, hnn]
          rw [horigeq, hproc] at hpe0
          rw [Option.some.injEq] at hpe0
          refine ⟨_, ?_, hd2ok⟩
          rw [← hpe0]

/-- Witness for C1: converting the two-plate archive `zC1` (ids {1, 2})
yields one listing entry containing exactly one plate with id 1. -/
theorem C1_output_single_plate_witness :
    outSingleListing (.built [(nm "Metadata/model_settings.config", .xmlOut dSingle1)]
      (nm "foo_plate1.gcode.3mf")) dC1 := by
  refine C1_output_single_plate zC1 (nm "foo.gcode.3mf") [] (nm "ms") dC1 2
    (by decide) (by decide) (by decide) ?_ ?_ _ (by rfl)
  · have hparse : parse_model_settings_config dC1 =
        [{ plater_id := 1, gcode_file := [],
           xml_plate_elem := [.metadata (some (nm "plater_id")) (some (nm "1"))] },
         { plater_id := 2, gcode_file := [],
           xml_plate_elem := [.metadata (some (nm "plater_id")) (some (nm "2"))] }] := by
      decide
    intro i
    rw [hparse]
    constructor
    · rintro ⟨p, hp, rfl⟩
      rcases List.mem_cons.mp hp with rfl | hp2
      · exact ⟨by decide, by decide⟩
      · rcases List.mem_cons.mp hp2 with rfl | hp3
        · exact ⟨by decide, by decide⟩
        · exact absurd hp3 (List.not_mem_nil _)
    · rintro ⟨h1, h2⟩
      have hor : i = 1 ∨ i = 2 := by omega
      rcases hor with rfl | rfl
      · exact ⟨_, List.mem_cons_self _ _, rfl⟩
      · exact ⟨_, List.mem_cons_of_mem _ (List.mem_cons_self _ _), rfl⟩
  · intro cs hcs
    have hpe : plateElems dC1 =
        [[PChild.metadata (some (nm "plater_id")) (some (nm "1"))],
         [PChild.metadata (some (nm "plater_id")) (some (nm "2"))]] := by decide
    rw [hpe] at hcs
    rcases List.mem_cons.mp hcs with rfl | hcs2
    · exact ⟨nm "1", 1, by decide, by decide⟩
    · rcases List.mem_cons.mp hcs2 with rfl | hcs3
      · exact ⟨nm "2", 2, by decide, by decide⟩
      · exact absurd hcs3 (List.not_mem_nil _)

/-! ## Claims C6 and C7: junk and wrapper prefix in the output -/

theorem takeWhile_append_all {p : Char → Bool} {l1 : List Char} (l2 : List Char)
    (h : ∀ c ∈ l1, p c = true) :
    (l1 ++ l2).takeWhile p = l1 ++ l2.takeWhile p := by
  induction l1 with
  | nil => simp
  | cons c t ih =>
    rw [List.cons_append, List.takeWhile_cons, h c (List.mem_cons_self c t)]
    simp only [if_true, List.cons_append, List.cons.injEq, true_and]
    exact ih (fun x hx => h x (List.mem_cons_of_mem c hx))

theorem PLATE_FILE_RX_groups {n stem ds ext : Name}
    (h : PLATE_FILE_RX n = some (stem, ds, ext)) :
    n = nm "Metadata/" ++ stem ++ '_' :: (ds ++ ext) ∧
      ∃ t, ext = '.' :: t ∧ t ≠ [] ∧ '/' ∉ t := by
  unfold PLATE_FILE_RX at h
  split at h
  · rename_i hsw
    obtain ⟨tail, htail⟩ := (startsWithN_iff n (nm "Metadata/")).mp hsw
    have hdrop : n.drop 9 = tail := by
      rw [htail, show (9 : Nat) = (nm "Metadata/").length from rfl]
      exact List.drop_left _ _
    split at h
    · exact absurd h (by simp)
    · rename_i c rest hcr
      split at h
      · exact absurd h (by simp)
      · rw [Option.map_eq_some'] at h
        obtain ⟨⟨st, ds', ext'⟩, hfind, heq⟩ := h
        rw [Prod.mk.injEq, Prod.mk.injEq] at heq
        obtain ⟨rfl, rfl, rfl⟩ := heq
        obtain ⟨hs, -, -, -, hext⟩ := rxFind_some hfind
        refine ⟨?_, hext⟩
        have htc : tail = c :: rest := by rw [← hdrop, hcr]
        rw [htail, htc, hs]
        simp
  · exact absurd h (by simp)

theorem startsWithN_metadata_macosx (X : Name) :
    startsWithN (nm "Metadata/" ++ X) (nm "__MACOSX/") = false := rfl

theorem mem_baseName_mid {A ext : Name} {c : Char} (hc : c ≠ '/') (hsl : '/' ∉ ext) :
    c ∈ baseName (A ++ ('_' :: c :: ext)) := by
  unfold baseName
  rw [List.mem_reverse, List.reverse_append,
    show ('_' :: c :: ext).reverse = ext.reverse ++ (c :: '_' :: []) from by simp,
    List.append_assoc]
  have hall : ∀ x ∈ ext.reverse, (fun c : Char => decide (c ≠ '/')) x = true := by
    intro x hx
    refine decide_eq_true ?_
    intro h0
    rw [h0] at hx
    exact hsl (List.mem_reverse.mp hx)
  rw [takeWhile_append_all ((c :: '_' :: []) ++ A.reverse) hall]
  refine List.mem_append_right _ ?_
  rw [List.cons_append, List.takeWhile_cons, decide_eq_true hc]
  simp only [if_true]
  exact List.mem_cons_self _ _

theorem rename_not_junk {nn newName : Name} {keep : Int}
    (h : rename_or_drop_plate_file nn keep 1 = (true, newName))
    (hnn : is_mac_junk nn = false) :
    is_mac_junk newName = false := by
  unfold rename_or_drop_plate_file at h
  rcases hrx : PLATE_FILE_RX nn with _ | ⟨stem, ds, ext⟩
  · rw [hrx] at h
    rw [Prod.mk.injEq] at h
    rw [← h.2]
    exact hnn
  · simp only [hrx] at h
    split at h
    · rw [Prod.mk.injEq] at h
      exact absurd h.1.symm (by simp)
    · rw [Prod.mk.injEq] at h
      obtain ⟨t, hext, ht, hslt⟩ := (PLATE_FILE_RX_groups hrx).2
      have hslext : '/' ∉ ext := by
        rw [hext]
        intro hm
        rcases List.mem_cons.mp hm with h0 | h0
        · exact absurd h0 (by decide)
        · exact hslt h0
      have hnew : newName = (nm "Metadata/" ++ stem) ++ ('_' :: '1' :: ext) := by
        rw [← h.2, show intChars 1 = ['1'] from by decide]
        simp
      unfold is_mac_junk
      rw [hnew]
      have h1 : startsWithN ((nm "Metadata/" ++ stem) ++ ('_' :: '1' :: ext))
          (nm "__MACOSX/") = false := by
        rw [List.append_assoc]
        exact startsWithN_metadata_macosx _
      have h2 : '1' ∈ baseName ((nm "Metadata/" ++ stem) ++ ('_' :: '1' :: ext)) :=
        mem_baseName_mid (by decide) hslext
      have h3 : (baseName ((nm "Metadata/" ++ stem) ++ ('_' :: '1' :: ext)) ==
          nm ".DS_Store") = false := by
        refine beq_eq_false_iff_ne.mpr ?_
        intro heq
        rw [heq] at h2
        exact absurd h2 (by decide)
      rw [h1, h3]
      rfl

theorem convert_built_inv {z : Zip} {inputName : Name} {existing : List Name}
    {es : List (Name × OutData)} {op : Name}
    (hconv : convert z inputName existing = .ok (.built es op)) :
    ∃ pid gp w,
      detect_exported_plate_id z (z.entries.map (fun e => e.name))
        ( flatten_wrapper_prefix (z.entries.map (fun e => e.name))) = .ok (pid, gp, w) ∧
      es = (nonjunkNames (z.entries.map (fun e => e.name))).filterMap
        (processEntry z ( flatten_wrapper_prefix (z.entries.map (fun e => e.name))) pid) := by
  unfold convert at hconv
  rcases hdet : detect_exported_plate_id z (z.entries.map (fun e => e.name))
      ( flatten_wrapper_prefix (z.entries.map (fun e => e.name))) with he | ⟨pid, gp, w⟩
  · simp only [hdet] at hconv
    exact absurd hconv (by simp)
  · simp only [hdet] at hconv
    rcases hop : compute_output_path existing inputName pid with _ | op2
    · simp only [hop] at hconv
      exact absurd hconv (by simp)
    · simp only [hop] at hconv
      split at hconv
      · exact absurd hconv (by simp)
      · rw [Except.ok.injEq, ConvOut.built.injEq] at hconv
        exact ⟨pid, gp, w, hdet, hconv.1.symm⟩

theorem startsWithN_of_append_slashfree {B r pfx y : Name}
    (hy : pfx = y ++ ['/']) (hr : '/' ∉ r)
    (hsw : startsWithN (B ++ r) pfx = true) :
    startsWithN B pfx = true := by
  obtain ⟨t, ht⟩ := (startsWithN_iff _ _).mp hsw
  have h1 : (B ++ r).take pfx.length = pfx := by
    rw [ht, List.take_append_eq_append_take, List.take_of_length_le (le_refl _),
      Nat.sub_self, List.take_zero, List.append_nil]
  by_cases hk : pfx.length ≤ B.length
  · refine (startsWithN_iff _ _).mpr ⟨B.drop pfx.length, ?_⟩
    have h2 : (B ++ r).take pfx.length = B.take pfx.length := by
      rw [List.take_append_eq_append_take,
        show pfx.length - B.length = 0 from by omega, List.take_zero, List.append_nil]
    rw [h2] at h1
    conv_lhs => rw [← List.take_append_drop pfx.length B]
    rw [h1]
  · exfalso
    push_neg at hk
    rw [List.take_append_eq_append_take, List.take_of_length_le (by omega)] at h1
    have hrne : r.take (pfx.length - B.length) ≠ [] := by
      intro h0
      rw [h0, List.append_nil] at h1
      have hl := congrArg List.length h1
      omega
    have hlast : pfx.getLast? = some '/' := by
      rw [hy, List.getLast?_append_of_ne_nil _ (by simp)]
      rfl
    rw [← h1, List.getLast?_append_of_ne_nil _ hrne] at hlast
    exact hr (List.take_subset _ _ (List.mem_of_mem_getLast? hlast))

/-- **C6** counterexample: claim C6 asserts that no successful conversion
leaves a junk entry in the output, and it fails in two ways.  Fast path: the
bytes are copied verbatim, so on `zC6` the conversion succeeds although the
copied container's entry list contains the junk name `__MACOSX/j`.  Full
rewrite: junk is only filtered on the unstripped names, so on `zC6b` (wrapper
prefix `A/` detected) the entry `A/__MACOSX/x` is not junk before stripping
and is emitted under the junk name `__MACOSX/x`. -/
theorem C6_counterexample :
    ((∃ p, convert zC6 (nm "j.gcode.3mf") [] = .ok (.copied zC6.fileBytes p)) ∧
      nm "__MACOSX/j" ∈ zC6.entries.map (fun e => e.name) ∧
      is_mac_junk (nm "__MACOSX/j") = true) ∧
    ( flatten_wrapper_prefix (zC6b.entries.map (fun e => e.name)) = nm "A/" ∧
      convert zC6b (nm "a.gcode.3mf") [] = .ok (.built
        [(nm "[Content_Types].xml", OutData.txt (nm "ct")),
         (nm "Metadata/model_settings.config", OutData.xmlOut dSingle1),
         (nm "__MACOSX/x", OutData.bin)] (nm "a_plate1.gcode.3mf")) ∧
      is_mac_junk (nm "__MACOSX/x") = true) :=
  ⟨⟨⟨nm "j_plate1.gcode.3mf", by rfl⟩, by decide, by decide⟩,
   by decide, by rfl, by decide⟩

/-- **C6** (amended): on the full-rewrite path with no wrapper prefix
detected, the output archive contains no junk entry: every built entry's
name neither begins with `__MACOSX/` nor has base name `.DS_Store` (junk
sources are filtered out and a rename keeps the `Metadata/` prefix and
puts `1` in the base name).  Both exclusions are forced by
`C6_counterexample`: the fast path copies the input bytes verbatim, junk
entries included, and under a non-empty wrapper prefix the rewrite can emit
a junk-named entry, since junk is only filtered before stripping. -/
theorem C6_no_junk_in_rewritten_output (z : Zip) (inputName : Name)
    (existing : List Name)
    (hpfx : flatten_wrapper_prefix (z.entries.map (fun e => e.name)) = [])
    (es : List (Name × OutData)) (op : Name)
    (hconv : convert z inputName existing = .ok (.built es op)) :
    ∀ e ∈ es, is_mac_junk e.1 = false := by
  obtain ⟨pid, gp, w, -, hes⟩ := convert_built_inv hconv
  subst hes
  intro e he
  rw [List.mem_filterMap] at he
  obtain ⟨orig, horig, hpe⟩ := he
  rw [nonjunkNames, List.mem_filter] at horig
  obtain ⟨-, hflt⟩ := horig
  simp only [Bool.and_eq_true, Bool.not_eq_true'] at hflt
  obtain ⟨hjunk, hdir⟩ := hflt
  unfold processEntry at hpe
  rw [hpfx, show stripPfx [] orig = orig from by unfold stripPfx; rw [if_pos rfl]] at hpe
  rcases hrn : rename_or_drop_plate_file orig pid 1 with ⟨b, newName⟩
  rcases b with _ | _
  · simp only [hrn] at hpe
    exact absurd hpe (by simp)
  · simp only [hrn, Option.some.injEq] at hpe
    rw [← show newName = e.1 from congrArg Prod.fst hpe]
    exact rename_not_junk hrn hjunk

/-- **C6** witness: the amended theorem applied to a concrete two-plate
archive with no wrapper prefix, whose conversion builds a single listing
entry. -/
theorem C6_no_junk_in_rewritten_output_witness :
    is_mac_junk (nm "Metadata/model_settings.config") = false :=
  C6_no_junk_in_rewritten_output zC1 (nm "foo.gcode.3mf") [] (by decide)
    [(nm "Metadata/model_settings.config", OutData.xmlOut dSingle1)]
    (nm "foo_plate1.gcode.3mf") (by rfl)
    (nm "Metadata/model_settings.config", OutData.xmlOut dSingle1)
    (List.mem_cons_self _ _)

/-- **C7** counterexample: claim C7 asserts that when a non-empty wrapper
prefix is detected, no output entry name begins with it, and it fails in two
ways.  Fast path: on `zC7` the prefix `X/` is detected, yet the input bytes
are copied verbatim and the copied container's entry list contains
`X/[Content_Types].xml`, which begins with the prefix.  Full rewrite:
stripping removes a single leading occurrence, so on `zC7b` (prefix `X/`
detected) the entry `X/X/foo.txt` is emitted as `X/foo.txt`, which still
begins with the prefix. -/
theorem C7_counterexample :
    ( flatten_wrapper_prefix (zC7.entries.map (fun e => e.name)) = nm "X/" ∧
      (∃ p, convert zC7 (nm "w.gcode.3mf") [] = .ok (.copied zC7.fileBytes p)) ∧
      nm "X/[Content_Types].xml" ∈ zC7.entries.map (fun e => e.name) ∧
      startsWithN (nm "X/[Content_Types].xml") (nm "X/") = true) ∧
    ( flatten_wrapper_prefix (zC7b.entries.map (fun e => e.name)) = nm "X/" ∧
      convert zC7b (nm "v.gcode.3mf") [] = .ok (.built
        [(nm "[Content_Types].xml", OutData.txt (nm "ct")),
         (nm "Metadata/model_settings.config", OutData.xmlOut dSingle1),
         (nm "X/foo.txt", OutData.bin)] (nm "v_plate1.gcode.3mf")) ∧
      startsWithN (nm "X/foo.txt") (nm "X/") = true) :=
  ⟨⟨by decide, ⟨nm "w_plate1.gcode.3mf", by rfl⟩, by decide, by decide⟩,
   by decide, by rfl, by decide⟩

/-- **C7** (amended): on the full-rewrite path with a detected non-empty
wrapper prefix, no built entry's name begins with that prefix, provided no
once-stripped entry name itself begins with the prefix again.  Both provisos
are forced by `C7_counterexample`: the fast path copies the input bytes
verbatim, wrapper prefix included, and the code strips only one occurrence,
so `X/X/foo.txt` under prefix `X/` is output as the still-prefixed
`X/foo.txt`. -/
theorem C7_rewrite_strips_wrapper (z : Zip) (inputName : Name)
    (existing : List Name) (pfx : Name)
    (hpfx : flatten_wrapper_prefix (z.entries.map (fun e => e.name)) = pfx)
    (hne : pfx ≠ [])
    (hnd : ∀ n ∈ z.entries.map (fun e => e.name), is_mac_junk n = false →
      endsSlash n = false → startsWithN (n.drop pfx.length) pfx = false)
    (es : List (Name × OutData)) (op : Name)
    (hconv : convert z inputName existing = .ok (.built es op)) :
    ∀ e ∈ es, startsWithN e.1 pfx = false := by
  obtain ⟨y, hy⟩ := (flatten_props hpfx hne).1
  have hall := (flatten_props hpfx hne).2.1
  obtain ⟨pid, gp, w, -, hes⟩ := convert_built_inv hconv
  rw [hpfx] at hes
  subst hes
  intro e he
  rw [List.mem_filterMap] at he
  obtain ⟨orig, horig, hpe⟩ := he
  rw [nonjunkNames, List.mem_filter] at horig
  obtain ⟨hmem, hflt⟩ := horig
  simp only [Bool.and_eq_true, Bool.not_eq_true'] at hflt
  obtain ⟨hjunk, hdir⟩ := hflt
  have hswo : startsWithN orig pfx = true := hall orig hmem hjunk hdir
  have hstrip : stripPfx pfx orig = orig.drop pfx.length := by
    unfold stripPfx
    rw [if_neg hne, if_pos hswo]
  unfold processEntry at hpe
  rw [hstrip] at hpe
  rcases hrn : rename_or_drop_plate_file (orig.drop pfx.length) pid 1 with ⟨b, newName⟩
  rcases b with _ | _
  · simp only [hrn] at hpe
    exact absurd hpe (by simp)
  · simp only [hrn, Option.some.injEq] at hpe
    rw [← show newName = e.1 from congrArg Prod.fst hpe]
    have hnn : startsWithN (orig.drop pfx.length) pfx = false := hnd orig hmem hjunk hdir
    unfold rename_or_drop_plate_file at hrn
    rcases hrx : PLATE_FILE_RX (orig.drop pfx.length) with _ | ⟨stem, ds, ext⟩
    · rw [hrx] at hrn
      rw [Prod.mk.injEq] at hrn
      rw [← hrn.2]
      exact hnn
    · simp only [hrx] at hrn
      split at hrn
      · rw [Prod.mk.injEq] at hrn
        exact absurd hrn.1.symm (by simp)
      · rw [Prod.mk.injEq] at hrn
        have hdec := (PLATE_FILE_RX_groups hrx).1
        obtain ⟨t, hext, ht, hslt⟩ := (PLATE_FILE_RX_groups hrx).2
        have hslext : '/' ∉ ext := by
          rw [hext]
          intro hm
          rcases List.mem_cons.mp hm with h0 | h0
          · exact absurd h0 (by decide)
          · exact hslt h0
        have hnew : newName = ((nm "Metadata/" ++ stem) ++ ['_']) ++ ('1' :: ext) := by
          rw [← hrn.2, show intChars 1 = ['1'] from by decide]
          simp
        by_contra hcon
        rw [Bool.not_eq_false] at hcon
        rw [hnew] at hcon
        have hslr : '/' ∉ ('1' :: ext) := by
          intro hm
          rcases List.mem_cons.mp hm with h0 | h0
          · exact absurd h0 (by decide)
          · exact hslext h0
        have hB : startsWithN ((nm "Metadata/" ++ stem) ++ ['_']) pfx = true :=
          startsWithN_of_append_slashfree hy hslr hcon
        obtain ⟨u, hu⟩ := (startsWithN_iff _ _).mp hB
        have hnn2 : startsWithN (orig.drop pfx.length) pfx = true := by
          refine (startsWithN_iff _ _).mpr ⟨u ++ (ds ++ ext), ?_⟩
          rw [hdec, ← List.append_assoc pfx u (ds ++ ext), ← hu]
          simp
        rw [hnn2] at hnn
        exact Bool.noConfusion hnn

/-- **C7** witness: the amended theorem applied to a concrete wrapped
two-plate archive, whose conversion builds entries with the `X/` prefix
stripped. -/
theorem C7_rewrite_strips_wrapper_witness :
    startsWithN (nm "[Content_Types].xml") (nm "X/") = false ∧
    startsWithN (nm "Metadata/model_settings.config") (nm "X/") = false :=
  ⟨C7_rewrite_strips_wrapper zC7w (nm "y.gcode.3mf") [] (nm "X/") (by decide)
      (by decide) (by decide)
      [(nm "[Content_Types].xml", OutData.txt (nm "ct")),
       (nm "Metadata/model_settings.config", OutData.xmlOut dSingle1)]
      (nm "y_plate1.gcode.3mf") (by rfl)
      (nm "[Content_Types].xml", OutData.txt (nm "ct"))
      (List.mem_cons_self _ _),
   C7_rewrite_strips_wrapper zC7w (nm "y.gcode.3mf") [] (nm "X/") (by decide)
      (by decide) (by decide)
      [(nm "[Content_Types].xml", OutData.txt (nm "ct")),
       (nm "Metadata/model_settings.config", OutData.xmlOut dSingle1)]
      (nm "y_plate1.gcode.3mf") (by rfl)
      (nm "Metadata/model_settings.config", OutData.xmlOut dSingle1)
      (List.mem_cons_of_mem _ (List.mem_cons_self _ _))⟩

end Conv3mf

